import Mathlib

/-!
# Verification of the disk-viz scanner core

Shallow embedding of `src/scanner.ts` and the scan coordinator of
`src/server.ts`.  Filesystem access, the `du` subprocess and JS promise
scheduling are modelled explicitly:

* the filesystem is an inductive tree of entries (`FSEntry`), with dedicated
  constructors for entries whose `stat`/`readdir` calls fail and for symbolic
  links;
* the `du -sk` subprocess behind `fastDirSize` is an oracle
  `du : String → Option Nat` giving, per path, the kilobyte count parsed from
  its stdout (`none` models a process error, a timeout, or unparsable output);
* JS `Promise.all` over the entries of one directory is serialised in entry
  order (directory placeholder nodes are pushed synchronously before any file
  `stat` resolves, exactly as in the source, so a finished streaming tree
  lists subdirectory children before file children); the verified properties
  are insensitive to the completion order of sibling I/O, and the progress
  counters are additionally verified against *all* interleavings of sibling
  work (`MergeAll`);
* `Array.prototype.sort` with the comparator `(a, b) => b.size - a.size` is
  modelled as a sort producing a permutation ordered by `size` descending
  (ties are unspecified by the spec, so the concrete tie order is irrelevant).

Numbers are `Nat`: all sizes in the program are non-negative integers
(`stat.size`, `kb * 1024` and sums thereof).
-/

/-- `type` field of a tree node: `"file" | "directory"`. -/
inductive NodeType where
  | file
  | directory
deriving DecidableEq, Repr

/-- The `TreeNode` interface of `src/scanner.ts`:
`{ name, path, size, type, extension?, children?, truncated? }`.
`children = none` models an absent `children` field (unexpanded directory),
distinct from `some []` (expanded and empty).  `truncated` is `false` when the
optional field is absent. -/
inductive TreeNode where
  | mk (name : String) (path : String) (size : Nat) (type : NodeType)
      (extension : Option String) (children : Option (List TreeNode))
      (truncated : Bool)
deriving Repr

namespace TreeNode

def name : TreeNode → String
  | .mk n _ _ _ _ _ _ => n

def path : TreeNode → String
  | .mk _ p _ _ _ _ _ => p

def size : TreeNode → Nat
  | .mk _ _ s _ _ _ _ => s

def type : TreeNode → NodeType
  | .mk _ _ _ ty _ _ _ => ty

def extension : TreeNode → Option String
  | .mk _ _ _ _ e _ _ => e

def children : TreeNode → Option (List TreeNode)
  | .mk _ _ _ _ _ cs _ => cs

def truncated : TreeNode → Bool
  | .mk _ _ _ _ _ _ tr => tr

@[simp] theorem name_mk (n p s ty e cs tr) : name (.mk n p s ty e cs tr) = n := rfl
@[simp] theorem path_mk (n p s ty e cs tr) : path (.mk n p s ty e cs tr) = p := rfl
@[simp] theorem size_mk (n p s ty e cs tr) : size (.mk n p s ty e cs tr) = s := rfl
@[simp] theorem type_mk (n p s ty e cs tr) : type (.mk n p s ty e cs tr) = ty := rfl
@[simp] theorem extension_mk (n p s ty e cs tr) :
    extension (.mk n p s ty e cs tr) = e := rfl
@[simp] theorem children_mk (n p s ty e cs tr) :
    children (.mk n p s ty e cs tr) = cs := rfl
@[simp] theorem truncated_mk (n p s ty e cs tr) :
    truncated (.mk n p s ty e cs tr) = tr := rfl

/-- The list of children, treating an absent `children` field as empty (used
only to enumerate subtree nodes, never to conflate absent with empty). -/
def childrenList (t : TreeNode) : List TreeNode :=
  (children t).getD []

@[simp] theorem childrenList_mk_none (n p s ty e tr) :
    childrenList (.mk n p s ty e none tr) = [] := rfl

@[simp] theorem childrenList_mk_some (n p s ty e cs tr) :
    childrenList (.mk n p s ty e (some cs) tr) = cs := rfl

theorem sizeOf_lt_of_mem_childrenList {c t : TreeNode}
    (h : c ∈ childrenList t) : sizeOf c < sizeOf t := by
  obtain ⟨n, p, s, ty, e, cs, tr⟩ := t
  cases cs with
  | none => simp [childrenList] at h
  | some l =>
    simp only [childrenList_mk_some] at h
    have h1 : sizeOf c < sizeOf l := List.sizeOf_lt_of_mem h
    simp only [mk.sizeOf_spec, Option.some.sizeOf_spec]
    omega

/-- Strong induction over the nested tree structure. -/
def ind {P : TreeNode → Prop}
    (h : ∀ t : TreeNode, (∀ c ∈ childrenList t, P c) → P t) :
    ∀ t : TreeNode, P t
  | t => h t (fun c _hc => ind h c)
termination_by t => sizeOf t
decreasing_by exact sizeOf_lt_of_mem_childrenList _hc

end TreeNode

/-- `children.reduce((s, c) => s + c.size, 0)`. -/
def sumSizes (cs : List TreeNode) : Nat :=
  cs.foldl (fun s c => s + c.size) 0

theorem sumSizes_eq_sum_map (cs : List TreeNode) :
    sumSizes cs = (cs.map TreeNode.size).sum := by
  have h : ∀ (a : Nat), cs.foldl (fun s c => s + c.size) a
      = a + (cs.map TreeNode.size).sum := by
    induction cs with
    | nil => intro a; simp
    | cons c cs ih => intro a; simp [List.foldl_cons, ih]; omega
  simpa [sumSizes] using h 0

@[simp] theorem sumSizes_nil : sumSizes [] = 0 := rfl

theorem sumSizes_cons (c : TreeNode) (cs : List TreeNode) :
    sumSizes (c :: cs) = c.size + sumSizes cs := by
  simp [sumSizes_eq_sum_map]

theorem sumSizes_append (as bs : List TreeNode) :
    sumSizes (as ++ bs) = sumSizes as + sumSizes bs := by
  simp [sumSizes_eq_sum_map]

theorem sumSizes_perm {as bs : List TreeNode} (h : as.Perm bs) :
    sumSizes as = sumSizes bs := by
  simp only [sumSizes_eq_sum_map]
  exact (h.map TreeNode.size).sum_eq

/-- Order imposed by the comparator `(a, b) => b.size - a.size`:
`a` may precede `b` exactly when `b.size ≤ a.size`. -/
def sizeDescRel (a b : TreeNode) : Prop :=
  b.size ≤ a.size

instance : DecidableRel sizeDescRel := fun _ _ => Nat.decLe _ _

instance : IsTotal TreeNode sizeDescRel :=
  ⟨fun a b => Nat.le_total b.size a.size⟩

instance : IsTrans TreeNode sizeDescRel :=
  ⟨fun _ _ _ hab hbc => Nat.le_trans hbc hab⟩

/-- `children.sort((a, b) => b.size - a.size)` — sort by size, descending.
The source's comparator sort is modelled as an insertion sort: the only facts
used are that the result is a permutation ordered by size descending (the
order among equal sizes is unspecified). -/
def sortBySizeDesc (cs : List TreeNode) : List TreeNode :=
  List.insertionSort sizeDescRel cs

theorem sortBySizeDesc_perm (cs : List TreeNode) :
    (sortBySizeDesc cs).Perm cs :=
  List.perm_insertionSort sizeDescRel cs

theorem sortBySizeDesc_sorted (cs : List TreeNode) :
    (sortBySizeDesc cs).Pairwise (fun a b => b.size ≤ a.size) :=
  List.sorted_insertionSort sizeDescRel cs

theorem sortBySizeDesc_length (cs : List TreeNode) :
    (sortBySizeDesc cs).length = cs.length :=
  (sortBySizeDesc_perm cs).length_eq

theorem sumSizes_sortBySizeDesc (cs : List TreeNode) :
    sumSizes (sortBySizeDesc cs) = sumSizes cs :=
  sumSizes_perm (sortBySizeDesc_perm cs)

theorem mem_sortBySizeDesc {c : TreeNode} {cs : List TreeNode} :
    c ∈ sortBySizeDesc cs ↔ c ∈ cs :=
  (sortBySizeDesc_perm cs).mem_iff

/-- `CHILD_LIMIT_DEPTH` of `src/scanner.ts`. -/
def CHILD_LIMIT_DEPTH : Nat := 2

/-- `MAX_CHILDREN` of `src/scanner.ts`. -/
def MAX_CHILDREN : Nat := 30

/-- `MAX_CONCURRENT` of `src/scanner.ts`. -/
def MAX_CONCURRENT : Nat := 64

/-- The synthetic aggregate node pushed by the child-cap logic:
`{ name: "(k smaller items)", path: dirPath + "/__other__", size, type: "file" }`. -/
def aggregateNode (dirPath : String) (k : Nat) (droppedSize : Nat) : TreeNode :=
  .mk ("(" ++ toString k ++ " smaller items)") (dirPath ++ "/__other__")
    droppedSize .file none none false

mutual

/-- `recalcSizes` of `src/scanner.ts`: recalculate sizes bottom-up and sort
children by size descending.  Returns early (node untouched) when `children`
is absent or empty. -/
def recalcSizes : TreeNode → TreeNode
  | .mk n p s ty e none tr => .mk n p s ty e none tr
  | .mk n p s ty e (some cs) tr =>
    if cs.isEmpty then .mk n p s ty e (some cs) tr
    else
      let cs' := sortBySizeDesc (recalcList cs)
      .mk n p (sumSizes cs') ty e (some cs') tr

/-- `for (const child of node.children) recalcSizes(child)`. -/
def recalcList : List TreeNode → List TreeNode
  | [] => []
  | c :: cs => recalcSizes c :: recalcList cs

end

theorem recalcList_eq_map (cs : List TreeNode) :
    recalcList cs = cs.map recalcSizes := by
  induction cs with
  | nil => rfl
  | cons c cs ih => simp [recalcList, ih]

theorem recalcSizes_none (n p s ty e tr) :
    recalcSizes (.mk n p s ty e none tr) = .mk n p s ty e none tr := rfl

theorem recalcSizes_some_nil (n p s ty e tr) :
    recalcSizes (.mk n p s ty e (some []) tr) = .mk n p s ty e (some []) tr := rfl

theorem recalcSizes_some (n p s ty e cs tr) (h : cs ≠ []) :
    recalcSizes (.mk n p s ty e (some cs) tr)
      = .mk n p (sumSizes (sortBySizeDesc (cs.map recalcSizes))) ty e
          (some (sortBySizeDesc (cs.map recalcSizes))) tr := by
  rw [recalcSizes]
  rw [if_neg (by simpa [List.isEmpty_iff] using h), recalcList_eq_map]

mutual

/-- `applyChildLimits` of `src/scanner.ts`: recurse into children first, then,
at `depth >= CHILD_LIMIT_DEPTH`, fold all children beyond `MAX_CHILDREN` into
the synthetic aggregate node — only when the folded entries carry nonzero
size. -/
def applyChildLimits (depth : Nat) : TreeNode → TreeNode
  | .mk n p s ty e none tr => .mk n p s ty e none tr
  | .mk n p s ty e (some cs) tr =>
    if cs.isEmpty then .mk n p s ty e (some cs) tr
    else
      let cs' := applyLimitsList (depth + 1) cs
      if CHILD_LIMIT_DEPTH ≤ depth ∧ MAX_CHILDREN < cs'.length then
        let kept := cs'.take MAX_CHILDREN
        let droppedSize := sumSizes (cs'.drop MAX_CHILDREN)
        let kept' :=
          if 0 < droppedSize then
            kept ++ [aggregateNode p (cs'.length - MAX_CHILDREN) droppedSize]
          else kept
        .mk n p s ty e (some kept') tr
      else .mk n p s ty e (some cs') tr

/-- `for (const child of node.children) applyChildLimits(child, depth + 1)`. -/
def applyLimitsList (depth : Nat) : List TreeNode → List TreeNode
  | [] => []
  | c :: cs => applyChildLimits depth c :: applyLimitsList depth cs

end

theorem applyLimitsList_eq_map (depth : Nat) (cs : List TreeNode) :
    applyLimitsList depth cs = cs.map (applyChildLimits depth) := by
  induction cs with
  | nil => rfl
  | cons c cs ih => simp [applyLimitsList, ih]

theorem applyChildLimits_none (depth n p s ty e tr) :
    applyChildLimits depth (.mk n p s ty e none tr) = .mk n p s ty e none tr := rfl

theorem applyChildLimits_some_nil (depth n p s ty e tr) :
    applyChildLimits depth (.mk n p s ty e (some []) tr)
      = .mk n p s ty e (some []) tr := rfl

theorem applyChildLimits_some (depth n p s ty e cs tr) (h : cs ≠ []) :
    applyChildLimits depth (.mk n p s ty e (some cs) tr)
      = (let cs' := cs.map (applyChildLimits (depth + 1))
         if CHILD_LIMIT_DEPTH ≤ depth ∧ MAX_CHILDREN < cs'.length then
           let kept := cs'.take MAX_CHILDREN
           let droppedSize := sumSizes (cs'.drop MAX_CHILDREN)
           let kept' :=
             if 0 < droppedSize then
               kept ++ [aggregateNode p (cs'.length - MAX_CHILDREN) droppedSize]
             else kept
           .mk n p s ty e (some kept') tr
         else .mk n p s ty e (some cs') tr) := by
  rw [applyChildLimits]
  rw [if_neg (by simpa [List.isEmpty_iff] using h), applyLimitsList_eq_map]

/-- `snapshot` of `src/scanner.ts`: deep-copy the working tree (identity in
this pure model), recalculate sizes, apply child limits, recalculate again. -/
def snapshot (root : TreeNode) : TreeNode :=
  recalcSizes (applyChildLimits 0 (recalcSizes root))

mutual

/-- All (depth, node) pairs of a tree, the root being at the given depth. -/
def nodesWithDepth (d : Nat) : TreeNode → List (Nat × TreeNode)
  | .mk n p s ty e none tr => [(d, .mk n p s ty e none tr)]
  | .mk n p s ty e (some cs) tr =>
      (d, .mk n p s ty e (some cs) tr) :: nodesWithDepthList (d + 1) cs

def nodesWithDepthList (d : Nat) : List TreeNode → List (Nat × TreeNode)
  | [] => []
  | c :: cs => nodesWithDepth d c ++ nodesWithDepthList d cs

end

theorem mem_nodesWithDepthList {x : Nat × TreeNode} {d : Nat}
    {cs : List TreeNode} :
    x ∈ nodesWithDepthList d cs ↔ ∃ c ∈ cs, x ∈ nodesWithDepth d c := by
  induction cs with
  | nil => simp [nodesWithDepthList]
  | cons c cs ih => simp [nodesWithDepthList, ih]

theorem nodesWithDepth_eq (d : Nat) (t : TreeNode) :
    nodesWithDepth d t
      = (d, t) :: nodesWithDepthList (d + 1) (TreeNode.childrenList t) := by
  obtain ⟨n, p, s, ty, e, cs, tr⟩ := t
  cases cs with
  | none => simp [nodesWithDepth, nodesWithDepthList]
  | some l => simp [nodesWithDepth]

theorem mem_nodesWithDepth {x : Nat × TreeNode} {d : Nat} {t : TreeNode} :
    x ∈ nodesWithDepth d t
      ↔ x = (d, t)
        ∨ ∃ c ∈ TreeNode.childrenList t, x ∈ nodesWithDepth (d + 1) c := by
  rw [nodesWithDepth_eq]
  simp [mem_nodesWithDepthList]

theorem self_mem_nodesWithDepth (d : Nat) (t : TreeNode) :
    (d, t) ∈ nodesWithDepth d t := by
  rw [nodesWithDepth_eq]; exact List.mem_cons_self _ _

mutual

/-- All nodes of a tree (the tree itself and, recursively, its children). -/
def subNodes : TreeNode → List TreeNode
  | .mk n p s ty e none tr => [.mk n p s ty e none tr]
  | .mk n p s ty e (some cs) tr => .mk n p s ty e (some cs) tr :: subNodesList cs

def subNodesList : List TreeNode → List TreeNode
  | [] => []
  | c :: cs => subNodes c ++ subNodesList cs

end

theorem mem_subNodesList {x : TreeNode} {cs : List TreeNode} :
    x ∈ subNodesList cs ↔ ∃ c ∈ cs, x ∈ subNodes c := by
  induction cs with
  | nil => simp [subNodesList]
  | cons c cs ih => simp [subNodesList, ih]

theorem subNodes_eq (t : TreeNode) :
    subNodes t = t :: subNodesList (TreeNode.childrenList t) := by
  obtain ⟨n, p, s, ty, e, cs, tr⟩ := t
  cases cs with
  | none => simp [subNodes, subNodesList]
  | some l => simp [subNodes]

theorem mem_subNodes {x t : TreeNode} :
    x ∈ subNodes t
      ↔ x = t ∨ ∃ c ∈ TreeNode.childrenList t, x ∈ subNodes c := by
  rw [subNodes_eq]
  simp [mem_subNodesList]

theorem subNodes_all {P : TreeNode → Bool} {t : TreeNode} :
    (subNodes t).all P = true
      ↔ P t = true ∧ ∀ c ∈ TreeNode.childrenList t, (subNodes c).all P = true := by
  simp only [List.all_eq_true]
  constructor
  · intro h
    refine ⟨h t (by rw [mem_subNodes]; exact Or.inl rfl), ?_⟩
    intro c hc x hx
    exact h x (by rw [mem_subNodes]; exact Or.inr ⟨c, hc, hx⟩)
  · rintro ⟨h1, h2⟩ x hx
    rw [mem_subNodes] at hx
    rcases hx with rfl | ⟨c, hc, hx⟩
    · exact h1
    · exact h2 c hc x hx

/-- Node-level form of the size invariant: when the `children` field is
present, `size` equals the sum of the children's sizes. -/
def nodeSizeOkB (t : TreeNode) : Bool :=
  match TreeNode.children t with
  | none => true
  | some cs => TreeNode.size t == sumSizes cs

/-- The C1 invariant over a whole tree: every node whose `children` field is
present has `size` equal to the sum of its children's sizes. -/
def sizeOkB (t : TreeNode) : Bool :=
  (subNodes t).all nodeSizeOkB

/-- Node-level working-tree invariant: a node carrying a present-but-empty
`children` list has size 0.  This holds of every tree the streaming walker
builds: `fillNode` initialises `node.children = []` without ever writing
`node.size` on that code path (`size` stays 0 from node creation). -/
def nodeEmptyZeroB (t : TreeNode) : Bool :=
  match TreeNode.children t with
  | some [] => TreeNode.size t == 0
  | _ => true

/-- `nodeEmptyZeroB` at every node. -/
def emptyZeroB (t : TreeNode) : Bool :=
  (subNodes t).all nodeEmptyZeroB

theorem nodeSizeOkB_mk_some (n p s ty e cs tr) :
    nodeSizeOkB (.mk n p s ty e (some cs) tr) = (s == sumSizes cs) := rfl

theorem nodeSizeOkB_mk_none (n p s ty e tr) :
    nodeSizeOkB (.mk n p s ty e none tr) = true := rfl

theorem emptyZeroB_child {t c : TreeNode} (ht : emptyZeroB t = true)
    (hc : c ∈ TreeNode.childrenList t) : emptyZeroB c = true := by
  rw [emptyZeroB] at *
  exact (subNodes_all.mp ht).2 c hc

/-- `recalcSizes` establishes the size invariant on any tree in which
present-but-empty children lists come with size 0 (`recalcSizes` leaves such
nodes untouched), and preserves that side condition. -/
theorem recalcSizes_ok : ∀ t : TreeNode, emptyZeroB t = true →
    sizeOkB (recalcSizes t) = true ∧ emptyZeroB (recalcSizes t) = true := by
  refine TreeNode.ind ?_
  intro t ih hez
  obtain ⟨n, p, s, ty, e, cs, tr⟩ := t
  cases cs with
  | none =>
    rw [recalcSizes_none]
    refine ⟨?_, hez⟩
    rw [sizeOkB, subNodes_all]
    exact ⟨rfl, by simp⟩
  | some l =>
    cases l with
    | nil =>
      rw [recalcSizes_some_nil]
      refine ⟨?_, hez⟩
      rw [sizeOkB, subNodes_all]
      have hroot : nodeEmptyZeroB (.mk n p s ty e (some []) tr) = true :=
        (subNodes_all.mp (by rw [emptyZeroB] at hez; exact hez)).1
      refine ⟨?_, by simp⟩
      simp only [nodeEmptyZeroB] at hroot
      simpa [nodeSizeOkB] using hroot
    | cons c0 l0 =>
      rw [recalcSizes_some n p s ty e (c0 :: l0) tr (by simp)]
      set cs' := sortBySizeDesc ((c0 :: l0).map recalcSizes) with hcs'
      have hmem : ∀ c' ∈ cs', ∃ c ∈ c0 :: l0, c' = recalcSizes c := by
        intro c' hc'
        rw [hcs', mem_sortBySizeDesc, List.mem_map] at hc'
        obtain ⟨c, hc, rfl⟩ := hc'
        exact ⟨c, hc, rfl⟩
      have hih : ∀ c' ∈ cs',
          sizeOkB c' = true ∧ emptyZeroB c' = true := by
        intro c' hc'
        obtain ⟨c, hc, rfl⟩ := hmem c' hc'
        exact ih c (by simpa using hc) (emptyZeroB_child hez (by simpa using hc))
      have hne : cs' ≠ [] := by
        intro habs
        have := sortBySizeDesc_length ((c0 :: l0).map recalcSizes)
        rw [← hcs', habs] at this
        simp at this
      constructor
      · rw [sizeOkB, subNodes_all]
        refine ⟨by simp [nodeSizeOkB], ?_⟩
        intro c' hc'
        have := (hih c' (by simpa using hc')).1
        rw [sizeOkB] at this
        exact this
      · rw [emptyZeroB, subNodes_all]
        constructor
        · rcases hq : cs' with _ | ⟨x, xs⟩
          · exact absurd hq hne
          · rfl
        · intro c' hc'
          have := (hih c' (by simpa using hc')).2
          rw [emptyZeroB] at this
          exact this

theorem emptyZeroB_aggregateNode (p : String) (k ds : Nat) :
    emptyZeroB (aggregateNode p k ds) = true := rfl

/-- `applyChildLimits` never changes a node's `size`, never empties a
children list, and the only node it adds (the aggregate) has no children:
the empty-children-zero-size side condition survives it. -/
theorem applyChildLimits_emptyZero : ∀ t : TreeNode, ∀ d : Nat,
    emptyZeroB t = true → emptyZeroB (applyChildLimits d t) = true := by
  refine TreeNode.ind ?_
  intro t ih d hez
  obtain ⟨n, p, s, ty, e, cs, tr⟩ := t
  cases cs with
  | none => rw [applyChildLimits_none]; exact hez
  | some l =>
    cases l with
    | nil => rw [applyChildLimits_some_nil]; exact hez
    | cons c0 l0 =>
      rw [applyChildLimits_some d n p s ty e _ tr (by simp)]
      dsimp only
      have hchild : ∀ c' ∈ (c0 :: l0).map (applyChildLimits (d + 1)),
          emptyZeroB c' = true := by
        intro c' hc'
        rw [List.mem_map] at hc'
        obtain ⟨c, hc, rfl⟩ := hc'
        exact ih c (by simpa using hc) (d + 1)
          (emptyZeroB_child hez (by simpa using hc))
      set cs' := (c0 :: l0).map (applyChildLimits (d + 1)) with hcs'
      by_cases hcap : CHILD_LIMIT_DEPTH ≤ d ∧ MAX_CHILDREN < cs'.length
      · rw [if_pos hcap]
        have htake : ∀ c' ∈ cs'.take MAX_CHILDREN, emptyZeroB c' = true :=
          fun c' hc' => hchild c' (List.take_subset _ _ hc')
        have htakene : cs'.take MAX_CHILDREN ≠ [] := by
          have hlen : (cs'.take MAX_CHILDREN).length = MAX_CHILDREN := by
            rw [List.length_take]
            exact Nat.min_eq_left (Nat.le_of_lt hcap.2)
          intro habs
          rw [habs] at hlen
          simp [MAX_CHILDREN] at hlen
        by_cases hdrop : 0 < sumSizes (cs'.drop MAX_CHILDREN)
        · rw [if_pos hdrop]
          rw [emptyZeroB, subNodes_all]
          constructor
          · rcases hq : cs'.take MAX_CHILDREN with _ | ⟨x, xs⟩
            · exact absurd hq htakene
            · rfl
          · intro c' hc'
            simp only [TreeNode.childrenList_mk_some, List.mem_append,
              List.mem_singleton] at hc'
            rcases hc' with hc' | rfl
            · have := htake c' hc'
              rw [emptyZeroB] at this
              exact this
            · have := emptyZeroB_aggregateNode p (cs'.length - MAX_CHILDREN)
                (sumSizes (cs'.drop MAX_CHILDREN))
              rw [emptyZeroB] at this
              exact this
        · rw [if_neg hdrop]
          rw [emptyZeroB, subNodes_all]
          constructor
          · rcases hq : cs'.take MAX_CHILDREN with _ | ⟨x, xs⟩
            · exact absurd hq htakene
            · rfl
          · intro c' hc'
            simp only [TreeNode.childrenList_mk_some] at hc'
            have := htake c' hc'
            rw [emptyZeroB] at this
            exact this
      · rw [if_neg hcap]
        rw [emptyZeroB, subNodes_all]
        refine ⟨rfl, ?_⟩
        intro c' hc'
        simp only [TreeNode.childrenList_mk_some] at hc'
        have := hchild c' hc'
        rw [emptyZeroB] at this
        exact this

/-- C1.  In every published snapshot (any tree passed to `onProgress` and
the tree returned by `scanDirectoryStreaming`, all of which are produced by
`snapshot`), every directory node whose children are present has `size` equal
to the sum of its children's sizes.  The hypothesis `emptyZeroB t = true`
states the walker invariant satisfied by every working tree handed to
`snapshot`: a present-but-empty children list comes with size 0 (`fillNode`
sets `node.children = []` on a code path that never writes `node.size`, which
stays 0 from node creation). -/
theorem snapshot_size_eq_sum_children (t : TreeNode)
    (h : emptyZeroB t = true) : sizeOkB (snapshot t) = true := by
  have h1 := recalcSizes_ok t h
  have h2 := applyChildLimits_emptyZero (recalcSizes t) 0 h1.2
  exact (recalcSizes_ok _ h2).1

/-- The spec's fixture `/tmp/x` as a streaming working tree: `a.txt` (10
bytes), `b/` containing `c.txt` (20 bytes) and `d.txt` (5 bytes); directory
sizes still 0 as `fillNode` leaves them. -/
def fixtureTree : TreeNode :=
  .mk "x" "/tmp/x" 0 .directory none
    (some
      [.mk "b" "/tmp/x/b" 0 .directory none
          (some
            [.mk "c.txt" "/tmp/x/b/c.txt" 20 .file (some ".txt") none false,
             .mk "d.txt" "/tmp/x/b/d.txt" 5 .file (some ".txt") none false])
          false,
       .mk "a.txt" "/tmp/x/a.txt" 10 .file (some ".txt") none false])
    false

/-- Witness for C1: the fixture working tree satisfies the hypothesis, and
the conclusion holds at it. -/
theorem snapshot_size_eq_sum_children_witness :
    emptyZeroB fixtureTree = true ∧ sizeOkB (snapshot fixtureTree) = true :=
  ⟨by decide, snapshot_size_eq_sum_children fixtureTree (by decide)⟩

theorem nodesWithDepth_all {P : Nat × TreeNode → Bool} {d : Nat} {t : TreeNode} :
    (nodesWithDepth d t).all P = true
      ↔ P (d, t) = true
        ∧ ∀ c ∈ TreeNode.childrenList t,
            (nodesWithDepth (d + 1) c).all P = true := by
  simp only [List.all_eq_true]
  constructor
  · intro h
    refine ⟨h _ (self_mem_nodesWithDepth d t), ?_⟩
    intro c hc x hx
    exact h x (mem_nodesWithDepth.mpr (Or.inr ⟨c, hc, hx⟩))
  · rintro ⟨h1, h2⟩ x hx
    rcases mem_nodesWithDepth.mp hx with rfl | ⟨c, hc, hx⟩
    · exact h1
    · exact h2 c hc x hx

/-- Node-level cap bound: at cap-eligible depth a node carries at most
`MAX_CHILDREN` explicit children plus possibly one aggregate. -/
def nodeCapLenOkB (d : Nat) (t : TreeNode) : Bool :=
  if CHILD_LIMIT_DEPTH ≤ d then
    decide ((TreeNode.childrenList t).length ≤ MAX_CHILDREN + 1)
  else true

/-- The cap bound at every node of a tree whose root sits at depth 0. -/
def capLenOkB (t : TreeNode) : Bool :=
  (nodesWithDepth 0 t).all fun x => nodeCapLenOkB x.1 x.2

theorem applyChildLimits_capLen : ∀ t : TreeNode, ∀ d : Nat,
    (nodesWithDepth d (applyChildLimits d t)).all
      (fun x => nodeCapLenOkB x.1 x.2) = true := by
  refine TreeNode.ind ?_
  intro t ih d
  obtain ⟨n, p, s, ty, e, cs, tr⟩ := t
  cases cs with
  | none =>
    rw [applyChildLimits_none, nodesWithDepth_all]
    exact ⟨by simp [nodeCapLenOkB], by simp⟩
  | some l =>
    cases l with
    | nil =>
      rw [applyChildLimits_some_nil, nodesWithDepth_all]
      exact ⟨by simp [nodeCapLenOkB], by simp⟩
    | cons c0 l0 =>
      rw [applyChildLimits_some d n p s ty e _ tr (by simp)]
      dsimp only
      set cs' := (c0 :: l0).map (applyChildLimits (d + 1)) with hcs'
      have hsub : ∀ c' ∈ cs',
          (nodesWithDepth (d + 1) c').all
            (fun x => nodeCapLenOkB x.1 x.2) = true := by
        intro c' hc'
        rw [hcs', List.mem_map] at hc'
        obtain ⟨c, hc, rfl⟩ := hc'
        exact ih c (by simpa using hc) (d + 1)
      by_cases hcap : CHILD_LIMIT_DEPTH ≤ d ∧ MAX_CHILDREN < cs'.length
      · rw [if_pos hcap]
        have htakelen : (cs'.take MAX_CHILDREN).length = MAX_CHILDREN := by
          rw [List.length_take]
          exact Nat.min_eq_left (Nat.le_of_lt hcap.2)
        have hagg : ∀ k ds, (nodesWithDepth (d + 1) (aggregateNode p k ds)).all
            (fun x => nodeCapLenOkB x.1 x.2) = true := by
          intro k ds
          rw [nodesWithDepth_all]
          exact ⟨by simp [nodeCapLenOkB, aggregateNode, MAX_CHILDREN], by simp [aggregateNode]⟩
        by_cases hdrop : 0 < sumSizes (cs'.drop MAX_CHILDREN)
        · rw [if_pos hdrop, nodesWithDepth_all]
          constructor
          · simp only [nodeCapLenOkB, TreeNode.childrenList_mk_some,
              List.length_append, htakelen, if_pos hcap.1]
            simp
          · intro c' hc'
            simp only [TreeNode.childrenList_mk_some, List.mem_append,
              List.mem_singleton] at hc'
            rcases hc' with hc' | rfl
            · exact hsub c' (List.take_subset _ _ hc')
            · exact hagg _ _
        · rw [if_neg hdrop, nodesWithDepth_all]
          constructor
          · simp only [nodeCapLenOkB, TreeNode.childrenList_mk_some,
              htakelen, if_pos hcap.1]
            simp [MAX_CHILDREN]
          · intro c' hc'
            simp only [TreeNode.childrenList_mk_some] at hc'
            exact hsub c' (List.take_subset _ _ hc')
      · rw [if_neg hcap, nodesWithDepth_all]
        constructor
        · simp only [nodeCapLenOkB]
          split
          · rename_i hd
            have hlen : ¬ MAX_CHILDREN < cs'.length := fun habs => hcap ⟨hd, habs⟩
            simp only [TreeNode.childrenList_mk_some]
            simp only [decide_eq_true_eq]
            omega
          · rfl
        · intro c' hc'
          simp only [TreeNode.childrenList_mk_some] at hc'
          exact hsub c' hc'

theorem recalcSizes_capLen : ∀ t : TreeNode, ∀ d : Nat,
    (nodesWithDepth d t).all (fun x => nodeCapLenOkB x.1 x.2) = true →
    (nodesWithDepth d (recalcSizes t)).all
      (fun x => nodeCapLenOkB x.1 x.2) = true := by
  refine TreeNode.ind ?_
  intro t ih d h
  obtain ⟨n, p, s, ty, e, cs, tr⟩ := t
  cases cs with
  | none => rw [recalcSizes_none]; exact h
  | some l =>
    cases l with
    | nil => rw [recalcSizes_some_nil]; exact h
    | cons c0 l0 =>
      rw [nodesWithDepth_all] at h
      rw [recalcSizes_some n p s ty e _ tr (by simp), nodesWithDepth_all]
      constructor
      · have hlen : (sortBySizeDesc ((c0 :: l0).map recalcSizes)).length
            = (c0 :: l0).length := by
          rw [sortBySizeDesc_length, List.length_map]
        simp only [nodeCapLenOkB, TreeNode.childrenList_mk_some, hlen]
        have h1 := h.1
        simpa only [nodeCapLenOkB, TreeNode.childrenList_mk_some] using h1
      · intro c' hc'
        simp only [TreeNode.childrenList_mk_some] at hc'
        rw [mem_sortBySizeDesc, List.mem_map] at hc'
        obtain ⟨c, hc, rfl⟩ := hc'
        exact ih c (by simpa using hc) (d + 1) (h.2 c (by simpa using hc))

/-- C2.  In every published snapshot every node at cap-eligible depth
(`depth ≥ CHILD_LIMIT_DEPTH = 2`) carries at most `MAX_CHILDREN = 30`
explicit children plus at most one aggregate (`capLenOkB`); a node at
cap-eligible depth whose children number more than 30 exposes exactly the 30
first (largest, post-recursion) children plus — when the folded entries have
nonzero total size — one synthetic aggregate node carrying exactly the sum of
the folded children's sizes; a node at depth < 2 is never capped: its
children list keeps its full length. -/
theorem childCap_spec :
    (∀ t : TreeNode, capLenOkB (snapshot t) = true)
    ∧ (∀ (d : Nat) (n p : String) (s : Nat) (ty : NodeType) (e : Option String)
         (cs : List TreeNode) (tr : Bool),
        CHILD_LIMIT_DEPTH ≤ d → MAX_CHILDREN < cs.length →
        (applyChildLimits d (.mk n p s ty e (some cs) tr)
          = .mk n p s ty e
              (some
                (if 0 < sumSizes ((cs.map (applyChildLimits (d + 1))).drop
                    MAX_CHILDREN) then
                  (cs.map (applyChildLimits (d + 1))).take MAX_CHILDREN
                    ++ [aggregateNode p
                          ((cs.map (applyChildLimits (d + 1))).length
                            - MAX_CHILDREN)
                          (sumSizes ((cs.map (applyChildLimits (d + 1))).drop
                            MAX_CHILDREN))]
                 else (cs.map (applyChildLimits (d + 1))).take MAX_CHILDREN))
              tr)
        ∧ ((cs.map (applyChildLimits (d + 1))).take MAX_CHILDREN).length
            = MAX_CHILDREN
        ∧ (∀ k ds, (aggregateNode p k ds).size = ds))
    ∧ (∀ (d : Nat) (n p : String) (s : Nat) (ty : NodeType) (e : Option String)
         (cs : List TreeNode) (tr : Bool),
        d < CHILD_LIMIT_DEPTH →
        applyChildLimits d (.mk n p s ty e (some cs) tr)
          = .mk n p s ty e (some (cs.map (applyChildLimits (d + 1)))) tr
        ∧ (cs.map (applyChildLimits (d + 1))).length = cs.length) := by
  refine ⟨?_, ?_, ?_⟩
  · intro t
    rw [capLenOkB, snapshot]
    exact recalcSizes_capLen _ 0 (applyChildLimits_capLen (recalcSizes t) 0)
  · intro d n p s ty e cs tr hd hlen
    have hne : cs ≠ [] := by
      intro habs; rw [habs] at hlen; simp [MAX_CHILDREN] at hlen
    have hlen' : MAX_CHILDREN < (cs.map (applyChildLimits (d + 1))).length := by
      rw [List.length_map]; exact hlen
    refine ⟨?_, ?_, fun k ds => rfl⟩
    · rw [applyChildLimits_some d n p s ty e cs tr hne]
      dsimp only
      rw [if_pos ⟨hd, hlen'⟩]
    · rw [List.length_take]
      exact Nat.min_eq_left (Nat.le_of_lt hlen')
  · intro d n p s ty e cs tr hd
    cases cs with
    | nil =>
      rw [applyChildLimits_some_nil]
      exact ⟨rfl, rfl⟩
    | cons c0 l0 =>
      have hcap : ¬ (CHILD_LIMIT_DEPTH ≤ d
          ∧ MAX_CHILDREN < ((c0 :: l0).map (applyChildLimits (d + 1))).length) :=
        fun habs => absurd hd (Nat.not_lt.mpr habs.1)
      constructor
      · rw [applyChildLimits_some d n p s ty e _ tr (by simp)]
        dsimp only
        rw [if_neg hcap]
      · rw [List.length_map]

/-- Files `f1 … fk` (sizes `1 … k`) inside directory `p`. -/
def manyFiles (p : String) : Nat → List TreeNode
  | 0 => []
  | k + 1 =>
      TreeNode.mk ("f" ++ toString (k + 1)) (p ++ "/f" ++ toString (k + 1))
        (k + 1) .file none none false :: manyFiles p k

/-- Witness for C2: the snapshot bound at the fixture tree, the cap applied
at depth 2 to a 31-entry directory, and the no-cap case at depth 0. -/
theorem childCap_spec_witness :
    capLenOkB (snapshot fixtureTree) = true
    ∧ (((manyFiles "/d" 31).map (applyChildLimits 3)).take MAX_CHILDREN).length
        = MAX_CHILDREN
    ∧ ((manyFiles "/d" 31).map (applyChildLimits 1)).length
        = (manyFiles "/d" 31).length :=
  ⟨childCap_spec.1 fixtureTree,
   (childCap_spec.2.1 2 "d" "/d" 0 .directory none (manyFiles "/d" 31) false
      (by decide) (by decide)).2.1,
   (childCap_spec.2.2 0 "d" "/d" 0 .directory none (manyFiles "/d" 31) false
      (by decide)).2⟩

mutual

/-- One directory entry as seen by `readdir(path, { withFileTypes: true })`:
a regular file with its `stat` size; a `badFile` whose `stat` call throws; a
subdirectory with its own `readdir` result; a symbolic link.  The walker
tests `entry.isSymbolicLink()` before anything else and never resolves
links, so a symlink's target is not part of the model — in particular a
symlink cycle has no structure to recurse into, exactly as in the source,
where links are skipped unresolved. -/
inductive FSEntry where
  | file (nm : String) (size : Nat)
  | badFile (nm : String)
  | dir (nm : String) (content : DirContent)
  | symlink (nm : String)

/-- The outcome of `readdir` on a directory: its entry list, or a thrown
error (`err`). -/
inductive DirContent where
  | ok (entries : List FSEntry)
  | err

end

/-- `join(dirPath, entry.name)` of `node:path`, modelled as separator
concatenation (no normalisation is needed for entry names). -/
def joinPath (dirPath nm : String) : String :=
  dirPath ++ "/" ++ nm

/-- The suffix of a name starting at its last `.` — at any position except
the very front of the scanned fragment. -/
def extSuffix : List Char → Option (List Char)
  | [] => none
  | c :: rest =>
      match extSuffix rest with
      | some s => some s
      | none => if rest ≠ [] ∧ c = '.' then some (c :: rest) else none

/-- Model of `extname(entry.name).toLowerCase() || undefined`: the lowercased
extension including its dot, absent when the name has no extension (no dot
past the first character). -/
def extOf (nm : String) : Option String :=
  match nm.toList with
  | [] => none
  | _ :: rest =>
      match extSuffix ('x' :: rest) with
      | none => none
      | some s => some (String.mk s).toLower

/-- `fastDirSize` of `src/scanner.ts`: run `du -sk path`, parse the first
tab-separated field as an integer, return `kb * 1024`, and return 0 on any
failure (process error, timeout, `NaN` parse) — all folded into the oracle
answering `none`.  An abort also returns 0. -/
def fastDirSize (du : String → Option Nat) (dirPath : String) : Nat :=
  match du dirPath with
  | none => 0
  | some kb => kb * 1024

mutual

/-- `scanDirectory` of `src/scanner.ts` (the one-shot, non-streaming walk).
`nm` stands for `basename(dirPath) || dirPath`; `content` is the `readdir`
result for `dirPath` (`err` when `readdir` throws).  `Promise.all`
preserves entry order, so children are collected in entry order before the
sort. -/
def scanDirectory (du : String → Option Nat) (maxDepth : Nat)
    (dirPath nm : String) (content : DirContent) (depth : Nat) :
    TreeNode :=
  if maxDepth ≤ depth then
    .mk nm dirPath (fastDirSize du dirPath) .directory none none true
  else
    match content with
    | .err => .mk nm dirPath 0 .directory none none false
    | .ok entries =>
      let children :=
        sortBySizeDesc (scanChildren du maxDepth dirPath (depth + 1) entries)
      let children2 :=
        if CHILD_LIMIT_DEPTH ≤ depth ∧ MAX_CHILDREN < children.length then
          let kept := children.take MAX_CHILDREN
          let droppedSize := sumSizes (children.drop MAX_CHILDREN)
          if 0 < droppedSize then
            kept ++ [aggregateNode dirPath (children.length - MAX_CHILDREN)
                      droppedSize]
          else kept
        else children
      .mk nm dirPath (sumSizes children2) .directory none (some children2) false

/-- The per-entry `Promise.all` body of `scanDirectory`: symlinks are skipped,
files whose `stat` throws are dropped, files become leaves, subdirectories
recurse at `depth + 1`. -/
def scanChildren (du : String → Option Nat) (maxDepth : Nat)
    (dirPath : String) (childDepth : Nat) : List FSEntry → List TreeNode
  | [] => []
  | .symlink _ :: rest => scanChildren du maxDepth dirPath childDepth rest
  | .badFile _ :: rest => scanChildren du maxDepth dirPath childDepth rest
  | .file nm sz :: rest =>
      .mk nm (joinPath dirPath nm) sz .file (extOf nm) none false
        :: scanChildren du maxDepth dirPath childDepth rest
  | .dir nm content :: rest =>
      scanDirectory du maxDepth (joinPath dirPath nm) nm content childDepth
        :: scanChildren du maxDepth dirPath childDepth rest

end

/-- The file leaves of one directory: files whose `stat` succeeds, in entry
order; symlinks and failed `stat`s contribute nothing. -/
def fillFileList (dirPath : String) : List FSEntry → List TreeNode
  | [] => []
  | .file nm sz :: rest =>
      .mk nm (joinPath dirPath nm) sz .file (extOf nm) none false
        :: fillFileList dirPath rest
  | .badFile _ :: rest => fillFileList dirPath rest
  | .dir _ _ :: rest => fillFileList dirPath rest
  | .symlink _ :: rest => fillFileList dirPath rest

mutual

/-- `fillNode` of `src/scanner.ts`, run to completion with no cancellation,
as the tree it leaves behind: at `depth >= maxDepth` the node is truncated
with the estimator size and no `children`; on `readdir` failure the node
keeps size 0 and no `children`; otherwise `children` is set and filled —
subdirectory placeholders are pushed synchronously in entry order before any
file `stat` resolves, and file completion order is serialised as entry
order (the verified properties do not depend on it).  Directory sizes are
*not* written by this function (they stay 0): sizes are recomputed at
snapshot time only. -/
def fillNode (du : String → Option Nat) (maxDepth : Nat)
    (dirPath nm : String) (content : DirContent) (depth : Nat) :
    TreeNode :=
  if maxDepth ≤ depth then
    .mk nm dirPath (fastDirSize du dirPath) .directory none none true
  else
    match content with
    | .err => .mk nm dirPath 0 .directory none none false
    | .ok entries =>
        .mk nm dirPath 0 .directory none
          (some (fillSubdirList du maxDepth dirPath (depth + 1) entries
                  ++ fillFileList dirPath entries))
          false

/-- The subdirectory placeholders of one directory, in entry order, each
filled recursively. -/
def fillSubdirList (du : String → Option Nat) (maxDepth : Nat)
    (dirPath : String) (childDepth : Nat) : List FSEntry → List TreeNode
  | [] => []
  | .dir nm content :: rest =>
      fillNode du maxDepth (joinPath dirPath nm) nm content childDepth
        :: fillSubdirList du maxDepth dirPath childDepth rest
  | .file _ _ :: rest => fillSubdirList du maxDepth dirPath childDepth rest
  | .badFile _ :: rest => fillSubdirList du maxDepth dirPath childDepth rest
  | .symlink _ :: rest => fillSubdirList du maxDepth dirPath childDepth rest

end

/-- C5.  A directory reached by the incremental walk at `depth == maxDepth`
(no cancellation) yields a node with `truncated = true`, no `children` field,
and `size` equal to the FastSizeEstimator's output for its path — which is 0
whenever the estimator fails (process error, unparsable output, timeout: all
the cases in which the `du` oracle answers `none`). -/
theorem fillNode_at_maxDepth (du : String → Option Nat) (maxDepth : Nat)
    (dirPath nm : String) (content : DirContent) (depth : Nat)
    (h : depth = maxDepth) :
    (fillNode du maxDepth dirPath nm content depth).truncated = true
    ∧ (fillNode du maxDepth dirPath nm content depth).children = none
    ∧ (fillNode du maxDepth dirPath nm content depth).size
        = fastDirSize du dirPath
    ∧ (du dirPath = none → fastDirSize du dirPath = 0) := by
  subst h
  rw [fillNode.eq_def, if_pos (Nat.le_refl _)]
  refine ⟨rfl, rfl, rfl, ?_⟩
  intro hdu
  rw [fastDirSize, hdu]

/-- Witness for C5: a concrete directory hit exactly at the depth limit,
with a failing estimator. -/
theorem fillNode_at_maxDepth_witness :
    (fillNode (fun _ => none) 2 "/deep" "deep" (.ok [.file "a" 7]) 2).truncated
        = true
    ∧ (fillNode (fun _ => none) 2 "/deep" "deep" (.ok [.file "a" 7]) 2).children
        = none
    ∧ (fillNode (fun _ => none) 2 "/deep" "deep" (.ok [.file "a" 7]) 2).size
        = fastDirSize (fun _ => none) "/deep"
    ∧ ((fun _ => none : String → Option Nat) "/deep" = none
        → fastDirSize (fun _ => none) "/deep" = 0) :=
  fillNode_at_maxDepth (fun _ => none) 2 "/deep" "deep" (.ok [.file "a" 7]) 2 rfl

mutual

/-- Erase every symlink entry of a filesystem, at every depth.  Both walkers
skip symlinks without resolving them, so a walk of the erased filesystem must
agree exactly with a walk of the original. -/
def eraseSymlinksList : List FSEntry → List FSEntry
  | [] => []
  | .symlink _ :: rest => eraseSymlinksList rest
  | .file nm sz :: rest => .file nm sz :: eraseSymlinksList rest
  | .badFile nm :: rest => .badFile nm :: eraseSymlinksList rest
  | .dir nm content :: rest =>
      .dir nm (eraseSymlinksContent content) :: eraseSymlinksList rest

/-- `eraseSymlinksList` through a `readdir` outcome. -/
def eraseSymlinksContent : DirContent → DirContent
  | .err => .err
  | .ok es => .ok (eraseSymlinksList es)

end

theorem erase_invariant :
    ∀ N : Nat,
      (∀ content : DirContent, sizeOf content ≤ N →
        ∀ (du : String → Option Nat) (maxDepth : Nat) (dirPath nm : String)
          (depth : Nat),
         scanDirectory du maxDepth dirPath nm (eraseSymlinksContent content)
             depth
           = scanDirectory du maxDepth dirPath nm content depth
         ∧ fillNode du maxDepth dirPath nm (eraseSymlinksContent content) depth
           = fillNode du maxDepth dirPath nm content depth)
      ∧ (∀ es : List FSEntry, sizeOf es ≤ N →
        ∀ (du : String → Option Nat) (maxDepth : Nat) (dirPath : String)
          (cd : Nat),
         scanChildren du maxDepth dirPath cd (eraseSymlinksList es)
           = scanChildren du maxDepth dirPath cd es
         ∧ fillSubdirList du maxDepth dirPath cd (eraseSymlinksList es)
           = fillSubdirList du maxDepth dirPath cd es
         ∧ fillFileList dirPath (eraseSymlinksList es)
           = fillFileList dirPath es) := by
  intro N
  induction N using Nat.strong_induction_on with
  | _ N ih =>
    constructor
    · intro content hsz du maxDepth dirPath nm depth
      cases content with
      | err => exact ⟨rfl, rfl⟩
      | ok es =>
        have hes : sizeOf es < N := by
          have : sizeOf es < sizeOf (DirContent.ok es) := by
            simp [DirContent.ok.sizeOf_spec]
          omega
        have h := (ih (sizeOf es) hes).2 es (Nat.le_refl _) du maxDepth dirPath
        constructor
        · simp only [eraseSymlinksContent, scanDirectory]
          rw [(h (depth + 1)).1]
        · simp only [eraseSymlinksContent, fillNode]
          rw [(h (depth + 1)).2.1, (h (depth + 1)).2.2]
    · intro es hsz du maxDepth dirPath cd
      cases es with
      | nil => exact ⟨rfl, rfl, rfl⟩
      | cons e rest =>
        have hrest : sizeOf rest < N := by
          have : sizeOf rest < sizeOf (e :: rest) := by
            simp [List.cons.sizeOf_spec]
            try omega
          omega
        have hr := (ih (sizeOf rest) hrest).2 rest (Nat.le_refl _) du maxDepth
          dirPath cd
        cases e with
        | file nm sz =>
          simp only [eraseSymlinksList, scanChildren, fillSubdirList,
            fillFileList]
          exact ⟨by rw [hr.1], by rw [hr.2.1], by rw [hr.2.2]⟩
        | badFile nm =>
          simp only [eraseSymlinksList, scanChildren, fillSubdirList,
            fillFileList]
          exact ⟨by rw [hr.1], by rw [hr.2.1], by rw [hr.2.2]⟩
        | symlink nm =>
          simp only [eraseSymlinksList, scanChildren, fillSubdirList,
            fillFileList]
          exact hr
        | dir nm content =>
          have hcontent : sizeOf content < N := by
            have : sizeOf content < sizeOf (FSEntry.dir nm content :: rest) := by
              simp [List.cons.sizeOf_spec, FSEntry.dir.sizeOf_spec]
              try omega
            omega
          have hc := (ih (sizeOf content) hcontent).1 content (Nat.le_refl _)
            du maxDepth (joinPath dirPath nm) nm cd
          simp only [eraseSymlinksList, scanChildren, fillSubdirList,
            fillFileList]
          exact ⟨by rw [hr.1, hc.1], by rw [hr.2.1, hc.2], by rw [hr.2.2]⟩

/-- C9.  Symbolic links never contribute a node: both walk modes produce on
any filesystem exactly the tree they produce on that filesystem with every
symlink removed, at every depth (and both walks are total Lean functions —
a symlink cycle cannot cause non-termination, because links are skipped
without being resolved, so they carry no structure to recurse into). -/
theorem symlink_erasure_invariance (du : String → Option Nat) (maxDepth : Nat)
    (dirPath nm : String) (content : DirContent) (depth : Nat) :
    scanDirectory du maxDepth dirPath nm (eraseSymlinksContent content) depth
      = scanDirectory du maxDepth dirPath nm content depth
    ∧ fillNode du maxDepth dirPath nm (eraseSymlinksContent content) depth
      = fillNode du maxDepth dirPath nm content depth :=
  (erase_invariant (sizeOf content)).1 content (Nat.le_refl _) du maxDepth
    dirPath nm depth

/-- Adjacent-pairs check that a children list is ordered by size descending. -/
def chainDescB : List TreeNode → Bool
  | [] => true
  | [_] => true
  | a :: b :: rest => (decide (b.size ≤ a.size)) && chainDescB (b :: rest)

theorem chainDescB_of_pairwise : ∀ cs : List TreeNode,
    cs.Pairwise (fun a b => b.size ≤ a.size) → chainDescB cs = true
  | [], _ => rfl
  | [_], _ => rfl
  | a :: b :: rest, h => by
      rw [List.pairwise_cons] at h
      have h1 : b.size ≤ a.size := h.1 b (by simp)
      rw [chainDescB]
      simp only [h1, decide_True, Bool.true_and]
      exact chainDescB_of_pairwise (b :: rest) h.2

/-- Node-level sortedness: the children (when present) are in descending
size order. -/
def nodeSortedB (t : TreeNode) : Bool :=
  chainDescB (TreeNode.childrenList t)

/-- The C3 invariant as claimed: every node's children sorted descending. -/
def sortedOkB (t : TreeNode) : Bool :=
  (subNodes t).all nodeSortedB

/-- Node-level weakened sortedness: children sorted descending, except that
the last child may be out of order (the slot where the child cap appends the
synthetic aggregate). -/
def nodeSortedButLastB (t : TreeNode) : Bool :=
  chainDescB (TreeNode.childrenList t)
    || chainDescB (TreeNode.childrenList t).dropLast

/-- The weakened C3 invariant over a whole tree. -/
def sortedButLastOkB (t : TreeNode) : Bool :=
  (subNodes t).all nodeSortedButLastB

theorem recalcSizes_sorted : ∀ t : TreeNode, sortedOkB (recalcSizes t) = true := by
  refine TreeNode.ind ?_
  intro t ih
  obtain ⟨n, p, s, ty, e, cs, tr⟩ := t
  cases cs with
  | none =>
    rw [recalcSizes_none, sortedOkB, subNodes_all]
    exact ⟨rfl, by simp⟩
  | some l =>
    cases l with
    | nil =>
      rw [recalcSizes_some_nil, sortedOkB, subNodes_all]
      exact ⟨rfl, by simp⟩
    | cons c0 l0 =>
      rw [recalcSizes_some n p s ty e _ tr (by simp), sortedOkB, subNodes_all]
      constructor
      · simp only [nodeSortedB, TreeNode.childrenList_mk_some]
        exact chainDescB_of_pairwise _ (sortBySizeDesc_sorted _)
      · intro c' hc'
        simp only [TreeNode.childrenList_mk_some] at hc'
        rw [mem_sortBySizeDesc, List.mem_map] at hc'
        obtain ⟨c, hc, rfl⟩ := hc'
        have := ih c (by simpa using hc)
        rw [sortedOkB] at this
        exact this

theorem sortedButLastOkB_leaf (n p : String) (s : Nat) (ty : NodeType)
    (e : Option String) (tr : Bool) :
    sortedButLastOkB (.mk n p s ty e none tr) = true := by
  rw [sortedButLastOkB, subNodes_all]
  exact ⟨rfl, by simp⟩

theorem sortedButLastOkB_mk_of (n p : String) (s : Nat) (ty : NodeType)
    (e : Option String) (tr : Bool) (cs : List TreeNode)
    (hroot : chainDescB cs = true ∨ chainDescB cs.dropLast = true)
    (hsub : ∀ c ∈ cs, sortedButLastOkB c = true) :
    sortedButLastOkB (.mk n p s ty e (some cs) tr) = true := by
  rw [sortedButLastOkB, subNodes_all]
  constructor
  · simp only [nodeSortedButLastB, TreeNode.childrenList_mk_some,
      Bool.or_eq_true]
    exact hroot
  · intro c hc
    have := hsub c (by simpa using hc)
    rw [sortedButLastOkB] at this
    exact this

theorem scanDirectory_sortedButLast_aux :
    ∀ N : Nat,
      (∀ content : DirContent, sizeOf content ≤ N →
        ∀ (du : String → Option Nat) (maxDepth : Nat) (dirPath nm : String)
          (depth : Nat),
        sortedButLastOkB (scanDirectory du maxDepth dirPath nm content depth)
          = true)
      ∧ (∀ es : List FSEntry, sizeOf es ≤ N →
        ∀ (du : String → Option Nat) (maxDepth : Nat) (dirPath : String)
          (cd : Nat),
        ∀ c' ∈ scanChildren du maxDepth dirPath cd es,
          sortedButLastOkB c' = true) := by
  intro N
  induction N using Nat.strong_induction_on with
  | _ N ih =>
    constructor
    · intro content hsz du maxDepth dirPath nm depth
      rw [scanDirectory.eq_def]
      by_cases hd : maxDepth ≤ depth
      · rw [if_pos hd]
        exact sortedButLastOkB_leaf _ _ _ _ _ _
      · rw [if_neg hd]
        cases content with
        | err => exact sortedButLastOkB_leaf _ _ _ _ _ _
        | ok es =>
          have hes : sizeOf es < N := by
            have : sizeOf es < sizeOf (DirContent.ok es) := by
              simp [DirContent.ok.sizeOf_spec]
            omega
          have hsub := (ih (sizeOf es) hes).2 es (Nat.le_refl _) du maxDepth
            dirPath (depth + 1)
          dsimp only
          set children :=
            sortBySizeDesc (scanChildren du maxDepth dirPath (depth + 1) es)
            with hchildren
          have hchain : chainDescB children = true :=
            chainDescB_of_pairwise _ (hchildren ▸ sortBySizeDesc_sorted _)
          have hsorted : children.Pairwise (fun a b => b.size ≤ a.size) :=
            hchildren ▸ sortBySizeDesc_sorted _
          have hmemch : ∀ c' ∈ children, sortedButLastOkB c' = true := by
            intro c' hc'
            rw [hchildren, mem_sortBySizeDesc] at hc'
            exact hsub c' hc'
          by_cases hcap : CHILD_LIMIT_DEPTH ≤ depth
              ∧ MAX_CHILDREN < children.length
          · rw [if_pos hcap]
            by_cases hdrop : 0 < sumSizes (children.drop MAX_CHILDREN)
            · rw [if_pos hdrop]
              refine sortedButLastOkB_mk_of _ _ _ _ _ _ _ (Or.inr ?_) ?_
              · rw [List.dropLast_concat]
                exact chainDescB_of_pairwise _
                  (hsorted.sublist (List.take_sublist _ _))
              · intro c hc
                rcases List.mem_append.mp hc with hc | hc
                · exact hmemch c (List.take_subset _ _ hc)
                · rw [List.mem_singleton] at hc
                  subst hc
                  exact sortedButLastOkB_leaf _ _ _ _ _ _
            · rw [if_neg hdrop]
              refine sortedButLastOkB_mk_of _ _ _ _ _ _ _ (Or.inl ?_) ?_
              · exact chainDescB_of_pairwise _
                  (hsorted.sublist (List.take_sublist _ _))
              · intro c hc
                exact hmemch c (List.take_subset _ _ hc)
          · rw [if_neg hcap]
            exact sortedButLastOkB_mk_of _ _ _ _ _ _ _ (Or.inl hchain) hmemch
    · intro es hsz du maxDepth dirPath cd
      cases es with
      | nil => intro c' hc'; simp [scanChildren] at hc'
      | cons e rest =>
        have hrest : sizeOf rest < N := by
          have : sizeOf rest < sizeOf (e :: rest) := by
            simp [List.cons.sizeOf_spec]
            try omega
          omega
        have hr := (ih (sizeOf rest) hrest).2 rest (Nat.le_refl _) du maxDepth
          dirPath cd
        cases e with
        | file nm sz =>
          intro c' hc'
          rw [scanChildren] at hc'
          rcases List.mem_cons.mp hc' with rfl | hc'
          · exact sortedButLastOkB_leaf _ _ _ _ _ _
          · exact hr c' hc'
        | badFile nm =>
          intro c' hc'
          rw [scanChildren] at hc'
          exact hr c' hc'
        | symlink nm =>
          intro c' hc'
          rw [scanChildren] at hc'
          exact hr c' hc'
        | dir nm content =>
          have hcontent : sizeOf content < N := by
            have : sizeOf content < sizeOf (FSEntry.dir nm content :: rest) := by
              simp [List.cons.sizeOf_spec, FSEntry.dir.sizeOf_spec]
              try omega
            omega
          intro c' hc'
          rw [scanChildren] at hc'
          rcases List.mem_cons.mp hc' with rfl | hc'
          · exact (ih (sizeOf content) hcontent).1 content (Nat.le_refl _)
              du maxDepth (joinPath dirPath nm) nm cd
          · exact hr c' hc'

/-- 32 one-byte files `g1 … g32`. -/
def onesFiles : Nat → List FSEntry
  | 0 => []
  | k + 1 => .file ("g" ++ toString (k + 1)) 1 :: onesFiles k

/-- A filesystem whose depth-2 directory holds 32 one-byte files.  The child
cap keeps the 30 largest (all of size 1), folds the remaining two (total
size 2) into an aggregate, and `scanDirectory` appends that aggregate at the
end *without re-sorting*: the children list ends `…, 1, 1, 2`. -/
def capFS : DirContent :=
  .ok [.dir "a" (.ok [.dir "b" (.ok (onesFiles 32))])]

/-- Counterexample to C3 as stated: the one-shot `scanDirectory` tree over
`capFS` has a node (the depth-2 directory `b`) whose children are *not*
sorted by size descending — the synthetic aggregate (size 2) sits after
thirty size-1 children. -/
theorem scanDirectory_not_sorted_counterexample :
    sortedOkB (scanDirectory (fun _ => none) 8 "/r" "r" capFS 0) = false := by
  decide

/-- C3 (amended).  Every published snapshot is sorted by size descending at
every node (the snapshot's final `recalcSizes` pass re-sorts after the child
cap).  A tree returned by the one-shot `scanDirectory` is sorted by size
descending at every node *except* that the child cap appends the synthetic
aggregate node after the sorted kept children without re-sorting, so the
last child of a capped node may be out of order (dropping the last child
restores descending order everywhere). -/
theorem sorted_desc_spec :
    (∀ t : TreeNode, sortedOkB (snapshot t) = true)
    ∧ (∀ (du : String → Option Nat) (maxDepth : Nat) (dirPath nm : String)
        (content : DirContent) (depth : Nat),
        sortedButLastOkB (scanDirectory du maxDepth dirPath nm content depth)
          = true) := by
  constructor
  · intro t
    rw [snapshot]
    exact recalcSizes_sorted _
  · intro du maxDepth dirPath nm content depth
    exact (scanDirectory_sortedButLast_aux (sizeOf content)).1 content
      (Nat.le_refl _) du maxDepth dirPath nm depth

/-- The `ActiveScan` record of `src/server.ts`, as far as the scan-request
decision observes it: its resolved path, whether the scan finished, and the
recorded error message, if any. -/
structure ActiveScan where
  path : String
  done : Bool
  error : Option String
deriving Repr, DecidableEq

/-- `startBackgroundScan` of `src/server.ts`, as its effect on the
coordinator state: abort the previous scan when one exists and is not done,
install a fresh running scan for the path, and fire exactly one walker.
Result: (new state, number of walkers started by this call, whether a
still-running scan was aborted). -/
def startBackgroundScan (st : Option ActiveScan) (dirPath : String) :
    Option ActiveScan × Nat × Bool :=
  let abortedOld :=
    match st with
    | some s => !s.done
    | none => false
  (some { path := dirPath, done := false, error := none }, 1, abortedOld)

/-- The `needsNew` decision of the `/api/scan` route (`src/server.ts`):
`!activeScan || activeScan.path !== resolved
|| (activeScan.done && activeScan.error != null)`. -/
def needsNew (st : Option ActiveScan) (resolved : String) : Bool :=
  match st with
  | none => true
  | some s => decide (s.path ≠ resolved) || (s.done && s.error.isSome)

/-- The `/api/scan` route after path validation: start a background scan only
when needed, otherwise attach to the existing state (no walker, no abort). -/
def requestScan (st : Option ActiveScan) (resolved : String) :
    Option ActiveScan × Nat × Bool :=
  if needsNew st resolved then startBackgroundScan st resolved
  else (st, 0, false)

/-- C4.  Requesting a scan for the path of the active scan while it is still
running, or after it finished successfully, starts no walker and aborts
nothing — the state is untouched and subscribers attach to it.  Requesting a
scan when none is active, for a different path, or for the same path after
the previous scan finished with an error, starts exactly one new walker,
installs a fresh running scan for the requested path, and aborts the
previous scan exactly when it was still running. -/
theorem requestScan_spec (st : Option ActiveScan) (resolved : String) :
    (∀ s : ActiveScan, st = some s → s.path = resolved →
      (s.done = false ∨ s.error = none) →
      requestScan st resolved = (st, 0, false))
    ∧ ((st = none ∨ ∃ s : ActiveScan, st = some s
          ∧ (s.path ≠ resolved ∨ (s.done = true ∧ s.error ≠ none))) →
      requestScan st resolved
        = (some { path := resolved, done := false, error := none }, 1,
            decide (∃ s : ActiveScan, st = some s ∧ s.done = false))) := by
  constructor
  · rintro s rfl hpath hok
    rw [requestScan, if_neg]
    rw [needsNew]
    simp only [hpath, ne_eq, not_true_eq_false, decide_False, Bool.false_or,
      Bool.and_eq_true, not_and, Bool.not_eq_true]
    intro habs
    rcases hok with hd | he
    · rw [hd] at habs; exact absurd habs (by simp)
    · rw [he]; rfl
  · intro h
    rw [requestScan, if_pos, startBackgroundScan.eq_def]
    dsimp only
    · rcases h with rfl | ⟨s, rfl, hs⟩
      · simp
      · simp only
        congr 1
        congr 1
        rcases Bool.eq_false_or_eq_true s.done with hd | hd
        · simp [hd]
        · simp [hd]
    · rcases h with rfl | ⟨s, rfl, hs⟩
      · rfl
      · rw [needsNew]
        rcases hs with hp | ⟨hd, he⟩
        · simp [hp]
        · simp [hd, Option.isSome_iff_ne_none.mpr he]

/-- Witness for C4: a same-path request against a running scan is a no-op;
a same-path request after a failed scan starts one fresh walker. -/
theorem requestScan_spec_witness :
    requestScan (some ⟨"/a", false, none⟩) "/a"
      = (some ⟨"/a", false, none⟩, 0, false)
    ∧ requestScan (some ⟨"/a", true, some "EACCES"⟩) "/a"
      = (some { path := "/a", done := false, error := none }, 1,
          decide (∃ s : ActiveScan,
            some (⟨"/a", true, some "EACCES"⟩ : ActiveScan) = some s
            ∧ s.done = false)) :=
  ⟨(requestScan_spec (some ⟨"/a", false, none⟩) "/a").1
      ⟨"/a", false, none⟩ rfl rfl (Or.inl rfl),
   (requestScan_spec (some ⟨"/a", true, some "EACCES"⟩) "/a").2
      (Or.inr ⟨⟨"/a", true, some "EACCES"⟩, rfl, Or.inr ⟨rfl, by simp⟩⟩)⟩

/-- The module-level limiter state of `src/scanner.ts`: the `active` counter
and the FIFO `queue` of suspended acquirers (represented by arrival tickets),
oldest first — `queue.push` appends, `queue.shift` removes the front. -/
structure LimState where
  active : Nat
  queue : List Nat
deriving Repr, DecidableEq

/-- `acquireSlot` of `src/scanner.ts`: grant immediately when
`active < MAX_CONCURRENT` (incrementing `active`), else suspend the caller at
the tail of the wait queue.  Returns (new state, granted at once?). -/
def acquireSlot (st : LimState) (w : Nat) : LimState × Bool :=
  if st.active < MAX_CONCURRENT then
    ({ st with active := st.active + 1 }, true)
  else
    ({ st with queue := st.queue ++ [w] }, false)

/-- `releaseSlot` of `src/scanner.ts`: hand the freed slot to the oldest
waiter when one exists (`queue.shift()` resolves it; `active` is unchanged —
the slot transfers), else decrement `active`.  Returns (new state, the waiter
granted, if any). -/
def releaseSlot (st : LimState) : LimState × Option Nat :=
  match st.queue with
  | w :: ws => ({ st with queue := ws }, some w)
  | [] => ({ st with active := st.active - 1 }, none)

/-- One limiter event, as driven by `withSlot`: an acquire by a new caller,
or a release by a slot holder.  `releaseSlot` is called only from
`withSlot`'s `finally`, i.e. by a caller that was granted a slot, whence
`0 < active` at every release. -/
inductive LimStep : LimState → LimState → Prop where
  | acquire (st : LimState) (w : Nat) : LimStep st (acquireSlot st w).1
  | release (st : LimState) (h : 0 < st.active) : LimStep st (releaseSlot st).1

/-- States reachable from the start state `{ active := 0, queue := [] }`. -/
def LimReachable : LimState → Prop :=
  Relation.ReflTransGen LimStep ⟨0, []⟩

/-- C7.  In every reachable limiter state, the number of
acquired-but-unreleased slots (`active`: incremented by an immediate grant,
transferred unchanged by a hand-over, decremented by a release with no
waiter) never exceeds the fixed capacity `MAX_CONCURRENT = 64`; a waiter
exists only when all 64 slots are held; a release grants the freed slot to
the *oldest* waiter (the queue head — `acquireSlot` appends at the tail, so
the queue is in arrival order) whenever any waiter exists, and otherwise
increments the free-slot count by decrementing `active`. -/
theorem limiter_spec (st : LimState) (h : LimReachable st) :
    st.active ≤ MAX_CONCURRENT
    ∧ (st.queue ≠ [] → st.active = MAX_CONCURRENT)
    ∧ (∀ w ws, st.queue = w :: ws →
        releaseSlot st = ({ st with queue := ws }, some w))
    ∧ (st.queue = [] →
        releaseSlot st = ({ st with active := st.active - 1 }, none))
    ∧ (∀ w : Nat, ¬ st.active < MAX_CONCURRENT →
        acquireSlot st w = ({ st with queue := st.queue ++ [w] }, false)) := by
  have hinv : st.active ≤ MAX_CONCURRENT
      ∧ (st.queue ≠ [] → st.active = MAX_CONCURRENT) := by
    induction h with
    | refl => exact ⟨by simp [MAX_CONCURRENT], by simp⟩
    | tail hsteps hstep ih =>
      rename_i b c
      cases hstep with
      | acquire w =>
        rw [acquireSlot]
        by_cases hlt : b.active < MAX_CONCURRENT
        · rw [if_pos hlt]
          refine ⟨hlt, ?_⟩
          intro hq
          exact absurd (ih.2 hq) (by omega)
        · rw [if_neg hlt]
          dsimp only
          refine ⟨ih.1, fun _ => ?_⟩
          have h1 := ih.1
          omega
      | release hpos =>
        rcases hq : b.queue with _ | ⟨w, ws⟩
        · simp only [releaseSlot.eq_def, hq]
          exact ⟨by have := ih.1; omega, by simp⟩
        · simp only [releaseSlot.eq_def, hq]
          refine ⟨ih.1, fun hne => ?_⟩
          exact ih.2 (by rw [hq]; simp)
  refine ⟨hinv.1, hinv.2, ?_, ?_, ?_⟩
  · intro w ws hq
    rw [releaseSlot.eq_def, hq]
  · intro hq
    rw [releaseSlot.eq_def, hq]
  · intro w hge
    rw [acquireSlot, if_neg hge]

/-- Witness for C7: the start state is reachable and satisfies the
conclusion. -/
theorem limiter_spec_witness :
    (⟨0, []⟩ : LimState).active ≤ MAX_CONCURRENT
    ∧ ((⟨0, []⟩ : LimState).queue ≠ []
        → (⟨0, []⟩ : LimState).active = MAX_CONCURRENT)
    ∧ (∀ w ws, (⟨0, []⟩ : LimState).queue = w :: ws →
        releaseSlot ⟨0, []⟩ = ({ (⟨0, []⟩ : LimState) with queue := ws }, some w))
    ∧ ((⟨0, []⟩ : LimState).queue = [] →
        releaseSlot ⟨0, []⟩
          = ({ (⟨0, []⟩ : LimState) with
                active := (⟨0, []⟩ : LimState).active - 1 }, none))
    ∧ (∀ w : Nat, ¬ (⟨0, []⟩ : LimState).active < MAX_CONCURRENT →
        acquireSlot ⟨0, []⟩ w
          = ({ (⟨0, []⟩ : LimState) with
                queue := (⟨0, []⟩ : LimState).queue ++ [w] }, false)) :=
  limiter_spec ⟨0, []⟩ Relation.ReflTransGen.refl

/-- One observable I/O event of a walk: a limiter acquire or release, or an
underlying call (`readdir`, `stat`, or the `du` size estimation). -/
inductive FsEv where
  | acq
  | rel
  | readdirCall (path : String)
  | statCall (path : String)
  | estimateCall (path : String)
deriving Repr, DecidableEq

/-- `withSlot(fn)` of `src/scanner.ts`: acquire a slot, issue the underlying
call, release in `finally` — the release follows the call on every exit path,
including when the call throws (the error propagates only after `finally`
ran).  In this serialisation the three events of one `withSlot` use are
contiguous; the verified discipline is per-call and holds under any
interleaving of distinct calls. -/
def withSlotTrace (callEv : FsEv) : List FsEv :=
  [.acq, callEv, .rel]

/-- The events of `fastDirSize` (`src/scanner.ts`): the `du` subprocess is
spawned directly — `fastDirSize` contains no `withSlot`/`acquireSlot` call. -/
def fastDirSizeTrace (dirPath : String) : List FsEv :=
  [.estimateCall dirPath]

mutual

/-- The I/O events of `scanDirectory`, in source order: at the depth limit a
bare size estimation; otherwise a slot-scoped `readdir` (also when it
throws), followed by the entries' events. -/
def scanDirectoryTrace (maxDepth : Nat) (dirPath : String)
    (content : DirContent) (depth : Nat) : List FsEv :=
  if maxDepth ≤ depth then fastDirSizeTrace dirPath
  else
    match content with
    | .err => withSlotTrace (.readdirCall dirPath)
    | .ok entries =>
        withSlotTrace (.readdirCall dirPath)
          ++ scanChildrenTrace maxDepth dirPath (depth + 1) entries

/-- Per-entry events of `scanDirectory`: a slot-scoped `stat` per file (also
when the `stat` throws), recursion per subdirectory, nothing for symlinks. -/
def scanChildrenTrace (maxDepth : Nat) (dirPath : String) (cd : Nat) :
    List FSEntry → List FsEv
  | [] => []
  | .symlink _ :: rest => scanChildrenTrace maxDepth dirPath cd rest
  | .file nm _ :: rest =>
      withSlotTrace (.statCall (joinPath dirPath nm))
        ++ scanChildrenTrace maxDepth dirPath cd rest
  | .badFile nm :: rest =>
      withSlotTrace (.statCall (joinPath dirPath nm))
        ++ scanChildrenTrace maxDepth dirPath cd rest
  | .dir nm content :: rest =>
      scanDirectoryTrace maxDepth (joinPath dirPath nm) content cd
        ++ scanChildrenTrace maxDepth dirPath cd rest

end

mutual

/-- The I/O events of `fillNode` (no cancellation), in source order. -/
def fillNodeTrace (maxDepth : Nat) (dirPath : String) (content : DirContent)
    (depth : Nat) : List FsEv :=
  if maxDepth ≤ depth then fastDirSizeTrace dirPath
  else
    match content with
    | .err => withSlotTrace (.readdirCall dirPath)
    | .ok entries =>
        withSlotTrace (.readdirCall dirPath)
          ++ fillEntriesTrace maxDepth dirPath (depth + 1) entries

/-- Per-entry events of `fillNode`: a slot-scoped `stat` per file (also when
the `stat` throws), recursion per subdirectory, nothing for symlinks. -/
def fillEntriesTrace (maxDepth : Nat) (dirPath : String) (cd : Nat) :
    List FSEntry → List FsEv
  | [] => []
  | .symlink _ :: rest => fillEntriesTrace maxDepth dirPath cd rest
  | .file nm _ :: rest =>
      withSlotTrace (.statCall (joinPath dirPath nm))
        ++ fillEntriesTrace maxDepth dirPath cd rest
  | .badFile nm :: rest =>
      withSlotTrace (.statCall (joinPath dirPath nm))
        ++ fillEntriesTrace maxDepth dirPath cd rest
  | .dir nm content :: rest =>
      fillNodeTrace maxDepth (joinPath dirPath nm) content cd
        ++ fillEntriesTrace maxDepth dirPath cd rest

end

/-- Is the event one of the limiter-mandated system calls (`readdir`/`stat`)? -/
def isSlotCall : FsEv → Bool
  | .readdirCall _ => true
  | .statCall _ => true
  | _ => false

/-- Check that every `readdir`/`stat` event sits directly between its own
acquire and release. -/
def slotScopedB : List FsEv → Bool
  | [] => true
  | .readdirCall _ :: _ => false
  | .statCall _ :: _ => false
  | .estimateCall _ :: rest => slotScopedB rest
  | .rel :: rest => slotScopedB rest
  | .acq :: .readdirCall _ :: .rel :: rest => slotScopedB rest
  | .acq :: .statCall _ :: .rel :: rest => slotScopedB rest
  | .acq :: rest => slotScopedB rest

/-- The discipline C6 claims: *every* call — `readdir`, `stat`, and the size
estimation alike — sits directly between its own acquire and release. -/
def allCallsScopedB : List FsEv → Bool
  | [] => true
  | .readdirCall _ :: _ => false
  | .statCall _ :: _ => false
  | .estimateCall _ :: _ => false
  | .rel :: rest => allCallsScopedB rest
  | .acq :: .readdirCall _ :: .rel :: rest => allCallsScopedB rest
  | .acq :: .statCall _ :: .rel :: rest => allCallsScopedB rest
  | .acq :: .estimateCall _ :: .rel :: rest => allCallsScopedB rest
  | .acq :: rest => allCallsScopedB rest

/-- Traces assembled from slot-scoped `readdir`/`stat` uses and bare
estimator calls — the shape of every trace either walker produces. -/
inductive WellScoped : List FsEv → Prop where
  | nil : WellScoped []
  | slot (e : FsEv) (he : isSlotCall e = true) (rest : List FsEv)
      (h : WellScoped rest) : WellScoped (.acq :: e :: .rel :: rest)
  | estimate (p : String) (rest : List FsEv) (h : WellScoped rest) :
      WellScoped (.estimateCall p :: rest)

theorem WellScoped.append {xs ys : List FsEv} (hx : WellScoped xs)
    (hy : WellScoped ys) : WellScoped (xs ++ ys) := by
  induction hx with
  | nil => exact hy
  | slot e he rest _ ih => exact .slot e he _ ih
  | estimate p rest _ ih => exact .estimate p _ ih

theorem WellScoped.scoped_true {tr : List FsEv} (h : WellScoped tr) :
    slotScopedB tr = true := by
  induction h with
  | nil => rfl
  | slot e he rest _ ih =>
    cases e with
    | readdirCall p => simpa [slotScopedB] using ih
    | statCall p => simpa [slotScopedB] using ih
    | acq => simp [isSlotCall] at he
    | rel => simp [isSlotCall] at he
    | estimateCall p => simp [isSlotCall] at he
  | estimate p rest _ ih => simpa [slotScopedB] using ih

theorem WellScoped.count_acq_eq_rel {tr : List FsEv} (h : WellScoped tr) :
    tr.count FsEv.acq = tr.count FsEv.rel := by
  induction h with
  | nil => rfl
  | slot e he rest _ ih =>
    cases e <;> simp_all [List.count_cons, isSlotCall]
  | estimate p rest _ ih =>
    simpa [List.count_cons] using ih

theorem traces_wellScoped :
    ∀ N : Nat,
      (∀ content : DirContent, sizeOf content ≤ N →
        ∀ (maxDepth : Nat) (dirPath : String) (depth : Nat),
        WellScoped (scanDirectoryTrace maxDepth dirPath content depth)
        ∧ WellScoped (fillNodeTrace maxDepth dirPath content depth))
      ∧ (∀ es : List FSEntry, sizeOf es ≤ N →
        ∀ (maxDepth : Nat) (dirPath : String) (cd : Nat),
        WellScoped (scanChildrenTrace maxDepth dirPath cd es)
        ∧ WellScoped (fillEntriesTrace maxDepth dirPath cd es)) := by
  intro N
  induction N using Nat.strong_induction_on with
  | _ N ih =>
    have hslot : ∀ p : String, WellScoped (withSlotTrace (.readdirCall p)) :=
      fun p => .slot (.readdirCall p) rfl [] .nil
    have hstat : ∀ p : String, WellScoped (withSlotTrace (.statCall p)) :=
      fun p => .slot (.statCall p) rfl [] .nil
    constructor
    · intro content hsz maxDepth dirPath depth
      constructor
      · rw [scanDirectoryTrace.eq_def]
        by_cases hd : maxDepth ≤ depth
        · rw [if_pos hd]
          exact .estimate _ [] .nil
        · rw [if_neg hd]
          cases content with
          | err => exact hslot dirPath
          | ok es =>
            have hes : sizeOf es < N := by
              have : sizeOf es < sizeOf (DirContent.ok es) := by
                simp [DirContent.ok.sizeOf_spec]
              omega
            exact (hslot dirPath).append
              ((ih (sizeOf es) hes).2 es (Nat.le_refl _) maxDepth dirPath
                (depth + 1)).1
      · rw [fillNodeTrace.eq_def]
        by_cases hd : maxDepth ≤ depth
        · rw [if_pos hd]
          exact .estimate _ [] .nil
        · rw [if_neg hd]
          cases content with
          | err => exact hslot dirPath
          | ok es =>
            have hes : sizeOf es < N := by
              have : sizeOf es < sizeOf (DirContent.ok es) := by
                simp [DirContent.ok.sizeOf_spec]
              omega
            exact (hslot dirPath).append
              ((ih (sizeOf es) hes).2 es (Nat.le_refl _) maxDepth dirPath
                (depth + 1)).2
    · intro es hsz maxDepth dirPath cd
      cases es with
      | nil => exact ⟨.nil, .nil⟩
      | cons e rest =>
        have hrest : sizeOf rest < N := by
          have : sizeOf rest < sizeOf (e :: rest) := by
            simp [List.cons.sizeOf_spec]
            try omega
          omega
        have hr := (ih (sizeOf rest) hrest).2 rest (Nat.le_refl _) maxDepth
          dirPath cd
        cases e with
        | file nm sz =>
          exact ⟨(hstat _).append hr.1, (hstat _).append hr.2⟩
        | badFile nm =>
          exact ⟨(hstat _).append hr.1, (hstat _).append hr.2⟩
        | symlink nm =>
          exact hr
        | dir nm content =>
          have hcontent : sizeOf content < N := by
            have : sizeOf content < sizeOf (FSEntry.dir nm content :: rest) := by
              simp [List.cons.sizeOf_spec, FSEntry.dir.sizeOf_spec]
              try omega
            omega
          have hc := (ih (sizeOf content) hcontent).1 content (Nat.le_refl _)
            maxDepth (joinPath dirPath nm) cd
          exact ⟨hc.1.append hr.1, hc.2.append hr.2⟩

/-- Counterexample to C6 as stated: the size estimation runs with *no*
limiter slot.  `scanDirectory` at `maxDepth = 0` issues the `du` call
directly: its event trace is a bare estimate event — not scoped by any
acquire/release, and containing no acquire at all. -/
theorem estimator_unlimited_counterexample :
    allCallsScopedB (scanDirectoryTrace 0 "/r" (.ok []) 0) = false
    ∧ (scanDirectoryTrace 0 "/r" (.ok []) 0).count FsEv.acq = 0 :=
  ⟨rfl, rfl⟩

/-- C6 (amended).  Every `readdir` and `stat` call of either walk mode
acquires a limiter slot immediately before the underlying call and releases
it immediately after on every exit path — including when the call throws
(`withSlot`'s `finally`) — and acquires and releases balance exactly over
any whole walk.  The size-estimation call, however, is *not* made under the
limiter: `fastDirSize` spawns `du` without acquiring a slot. -/
theorem slot_discipline_spec :
    (∀ (maxDepth : Nat) (dirPath : String) (content : DirContent)
       (depth : Nat),
      slotScopedB (scanDirectoryTrace maxDepth dirPath content depth) = true
      ∧ (scanDirectoryTrace maxDepth dirPath content depth).count FsEv.acq
          = (scanDirectoryTrace maxDepth dirPath content depth).count FsEv.rel
      ∧ slotScopedB (fillNodeTrace maxDepth dirPath content depth) = true
      ∧ (fillNodeTrace maxDepth dirPath content depth).count FsEv.acq
          = (fillNodeTrace maxDepth dirPath content depth).count FsEv.rel)
    ∧ (∀ dirPath : String,
        fastDirSizeTrace dirPath = [.estimateCall dirPath]) := by
  constructor
  · intro maxDepth dirPath content depth
    have h := (traces_wellScoped (sizeOf content)).1 content (Nat.le_refl _)
      maxDepth dirPath depth
    exact ⟨h.1.scoped_true, h.1.count_acq_eq_rel, h.2.scoped_true,
      h.2.count_acq_eq_rel⟩
  · intro dirPath
    rfl

/-- A scan event broadcast to subscribers — the `ScanEvent` union of
`src/server.ts`.  There is no "cancelled" variant: the type itself witnesses
that no synthetic cancelled event exists. -/
inductive ScanEv where
  | progress
  | done
  | error
deriving Repr, DecidableEq

/-- The phase of one streaming scan: whether its abort signal has fired and
whether its terminal transition (promise settlement handling) has run. -/
structure ScanPhase where
  aborted : Bool
  finished : Bool
deriving Repr, DecidableEq

/-- One atomic step of a scan's lifecycle, labelled with the events delivered
to that scan's subscribers:

* `tick` — the 500 ms interval callback with `dirty` set emits one
  `progress`; `tickAborted` — the same callback returns immediately when
  `signal.aborted` (`if (signal?.aborted) return` in
  `scanDirectoryStreaming`), emitting nothing;
* `abort` — the scan's abort signal fires (superseding `requestScan`);
* `finishOk` — `fillNode` settles with the signal clear: the post-`await`
  abort check passes, the final snapshot resolves the promise and `.then`
  broadcasts `done`.  The check, the `return` and the `.then` callback run
  within one microtask drain with no I/O (hence no abort) in between, so the
  step is atomic;
* `finishAborted` — `fillNode` settles with the signal already aborted:
  `scanDirectoryStreaming` throws `AbortError` and `.catch` swallows it
  (`err.name !== "AbortError"` fails) — nothing is emitted, ever after;
* `finishErr` — the walk rejects with a non-abort error and `.catch`
  broadcasts `error`.  After an abort the only rejection the walk can
  produce is the explicit `AbortError` (every filesystem error is caught per
  entry inside `fillNode`), so this step carries `aborted = false`. -/
inductive ScanStep : ScanPhase → List ScanEv → ScanPhase → Prop where
  | tick (s : ScanPhase) (h1 : s.aborted = false) (h2 : s.finished = false) :
      ScanStep s [.progress] s
  | tickAborted (s : ScanPhase) (h1 : s.aborted = true) : ScanStep s [] s
  | abort (s : ScanPhase) : ScanStep s [] { s with aborted := true }
  | finishOk (s : ScanPhase) (h1 : s.aborted = false)
      (h2 : s.finished = false) :
      ScanStep s [.done] { s with finished := true }
  | finishAborted (s : ScanPhase) (h1 : s.aborted = true)
      (h2 : s.finished = false) :
      ScanStep s [] { s with finished := true }
  | finishErr (s : ScanPhase) (h1 : s.aborted = false)
      (h2 : s.finished = false) :
      ScanStep s [.error] { s with finished := true }

/-- A run of scan-lifecycle steps, accumulating the delivered events. -/
inductive ScanRun : ScanPhase → List ScanEv → ScanPhase → Prop where
  | refl (s : ScanPhase) : ScanRun s [] s
  | step {s1 : ScanPhase} {evs1 : List ScanEv} {s2 : ScanPhase}
      {evs2 : List ScanEv} {s3 : ScanPhase}
      (h : ScanStep s1 evs1 s2) (hrest : ScanRun s2 evs2 s3) :
      ScanRun s1 (evs1 ++ evs2) s3

theorem ScanStep.of_aborted {s1 : ScanPhase} {evs : List ScanEv}
    {s2 : ScanPhase} (h : ScanStep s1 evs s2) (ha : s1.aborted = true) :
    evs = [] ∧ s2.aborted = true := by
  cases h with
  | tick h1 h2 => rw [h1] at ha; exact absurd ha (by simp)
  | tickAborted h1 => exact ⟨rfl, ha⟩
  | abort => exact ⟨rfl, rfl⟩
  | finishAborted h1 h2 => exact ⟨rfl, ha⟩
  | finishOk h1 h2 => rw [h1] at ha; exact absurd ha (by simp)
  | finishErr h1 h2 => rw [h1] at ha; exact absurd ha (by simp)

/-- C8.  Once a scan's cancel signal has fired — in particular after it fired
following some delivered `progress` event — no further `progress`, `done` or
`error` event is ever delivered to that scan's subscribers: cancellation is
never reported as an error, and (by the shape of `ScanEv`) no synthetic
cancelled event exists either. -/
theorem cancelled_scan_silent (s0 s1 s2 : ScanPhase)
    (evs1 evs2 : List ScanEv) (_hrun1 : ScanRun s0 evs1 s1)
    (_hprog : ScanEv.progress ∈ evs1) (hfired : s1.aborted = true)
    (hrun2 : ScanRun s1 evs2 s2) : evs2 = [] := by
  clear _hrun1 _hprog
  induction hrun2 with
  | refl s => rfl
  | step h hrest ih =>
    obtain ⟨he, ha⟩ := h.of_aborted hfired
    rw [he, ih ha]
    rfl

/-- Witness for C8: a run that delivers one `progress`, then aborts; the
subsequent settlement of the walk delivers nothing. -/
theorem cancelled_scan_silent_witness : (([] : List ScanEv) ++ []) = [] :=
  cancelled_scan_silent ⟨false, false⟩ ⟨true, false⟩ ⟨true, true⟩
    ([.progress] ++ ([] ++ [])) ([] ++ [])
    (ScanRun.step (ScanStep.tick ⟨false, false⟩ rfl rfl)
      (ScanRun.step (ScanStep.abort ⟨false, false⟩) (ScanRun.refl _)))
    (by decide) rfl
    (ScanRun.step (ScanStep.finishAborted ⟨true, false⟩ rfl rfl)
      (ScanRun.refl _))

/-- One progress-counter event of the streaming walk: a `dirsFound` increment
(`progress.dirsFound++` in the counting loop) or a `dirsCompleted` increment
(`progress.dirsCompleted++`, once per directory on every completion path). -/
inductive CEv where
  | found
  | comp
deriving Repr, DecidableEq

/-- All interleavings of two event sequences — the possible serialisations of
two concurrent branches of the walk. -/
inductive Interleave : List CEv → List CEv → List CEv → Prop where
  | nil : Interleave [] [] []
  | left {xs ys zs : List CEv} (x : CEv) (h : Interleave xs ys zs) :
      Interleave (x :: xs) ys (x :: zs)
  | right {xs ys zs : List CEv} (y : CEv) (h : Interleave xs ys zs) :
      Interleave xs (y :: ys) (y :: zs)

theorem Interleave.count {xs ys zs : List CEv} (h : Interleave xs ys zs)
    (a : CEv) : zs.count a = xs.count a + ys.count a := by
  induction h with
  | nil => rfl
  | left x h ih => simp [List.count_cons, ih]; omega
  | right y h ih => simp [List.count_cons, ih]; omega

theorem Interleave.take {xs ys zs : List CEv} (h : Interleave xs ys zs)
    (n : Nat) : ∃ i j, Interleave (xs.take i) (ys.take j) (zs.take n) := by
  induction h generalizing n with
  | nil => exact ⟨0, 0, by simpa using Interleave.nil⟩
  | left x h ih =>
    cases n with
    | zero => exact ⟨0, 0, Interleave.nil⟩
    | succ n =>
      obtain ⟨i, j, hij⟩ := ih n
      exact ⟨i + 1, j, by simpa using Interleave.left x hij⟩
  | right y h ih =>
    cases n with
    | zero => exact ⟨0, 0, Interleave.nil⟩
    | succ n =>
      obtain ⟨i, j, hij⟩ := ih n
      exact ⟨i, j + 1, by simpa using Interleave.right y hij⟩

/-- Prefix safety with credit `k`: every prefix of the event sequence has at
most `k` more completed-increments than found-increments. -/
def SafeBound (k : Nat) (tr : List CEv) : Prop :=
  ∀ n : Nat, (tr.take n).count CEv.comp ≤ (tr.take n).count CEv.found + k

theorem Interleave.safeBound {xs ys zs : List CEv} (h : Interleave xs ys zs)
    {a b : Nat} (hx : SafeBound a xs) (hy : SafeBound b ys) :
    SafeBound (a + b) zs := by
  intro n
  obtain ⟨i, j, hij⟩ := h.take n
  rw [hij.count CEv.comp, hij.count CEv.found]
  have h1 := hx i
  have h2 := hy j
  omega

/-- The `readdir` outcomes of the non-symlink subdirectory entries of one
directory, in entry order — exactly the entries counted by the
`progress.dirsFound` loop (`!entry.isSymbolicLink() && entry.isDirectory()`)
and subsequently filled recursively. -/
def subdirContents : List FSEntry → List DirContent
  | [] => []
  | .dir _ c :: rest => c :: subdirContents rest
  | .file _ _ :: rest => subdirContents rest
  | .badFile _ :: rest => subdirContents rest
  | .symlink _ :: rest => subdirContents rest

theorem sizeOf_subdirContents_le :
    ∀ es : List FSEntry, sizeOf (subdirContents es) ≤ sizeOf es := by
  intro es
  induction es with
  | nil => simp [subdirContents]
  | cons e rest ih =>
    cases e with
    | dir nm c =>
      rw [subdirContents]
      simp only [List.cons.sizeOf_spec, FSEntry.dir.sizeOf_spec]
      have hnm : 0 < sizeOf nm := by
        cases nm
        simp [String.mk.sizeOf_spec]
        try omega
      omega
    | file nm sz =>
      rw [subdirContents]
      simp only [List.cons.sizeOf_spec]
      omega
    | badFile nm =>
      rw [subdirContents]
      simp only [List.cons.sizeOf_spec]
      omega
    | symlink nm =>
      rw [subdirContents]
      simp only [List.cons.sizeOf_spec]
      omega

mutual

/-- The set of possible counter-event traces of one `fillNode` call without
cancellation, for a directory already accounted for in `dirsFound`:

* at `depth >= maxDepth` (after the estimator): exactly one `dirsCompleted`
  increment;
* on `readdir` failure: exactly one `dirsCompleted` increment;
* otherwise: `dirsFound` is incremented once per non-symlink subdirectory
  entry by the synchronous counting loop — an atomic block that runs
  *before* any recursive fill is dispatched — then the recursive fills of
  those subdirectories run concurrently (any interleaving of their traces;
  file entries contribute no counter events), and after all entries settle
  exactly one `dirsCompleted` increment. -/
def FillTraceSet (maxDepth depth : Nat) (content : DirContent)
    (tr : List CEv) : Prop :=
  if maxDepth ≤ depth then tr = [.comp]
  else
    match content with
    | .err => tr = [.comp]
    | .ok entries =>
        ∃ m, SubTraceSet maxDepth (depth + 1) (subdirContents entries) m
          ∧ tr = List.replicate (subdirContents entries).length .found
              ++ m ++ [.comp]
termination_by sizeOf content
decreasing_by
  have h1 := sizeOf_subdirContents_le entries
  simp [DirContent.ok.sizeOf_spec]
  omega

/-- The possible merged traces of the recursive fills of a directory's
subdirectory list: any interleaving of one admissible trace per
subdirectory. -/
def SubTraceSet (maxDepth depth : Nat) : List DirContent → List CEv → Prop
  | [], m => m = []
  | c :: cs, out =>
      ∃ t m, FillTraceSet maxDepth depth c t
        ∧ SubTraceSet maxDepth depth cs m
        ∧ Interleave t m out
termination_by cs _ => sizeOf cs
decreasing_by
  · simp [List.cons.sizeOf_spec]
    try omega
  · simp [List.cons.sizeOf_spec]
    try omega

end

theorem safeBound_single_comp : SafeBound 1 [CEv.comp] := by
  intro n
  cases n with
  | zero => simp [SafeBound]
  | succ n => simp [List.count_cons]

theorem fillTraceSafe_aux :
    ∀ N : Nat,
      (∀ content : DirContent, sizeOf content ≤ N →
        ∀ (maxDepth depth : Nat) (tr : List CEv),
        FillTraceSet maxDepth depth content tr →
        SafeBound 1 tr ∧ tr.count CEv.comp = tr.count CEv.found + 1)
      ∧ (∀ cs : List DirContent, sizeOf cs ≤ N →
        ∀ (maxDepth depth : Nat) (m : List CEv),
        SubTraceSet maxDepth depth cs m →
        SafeBound cs.length m
        ∧ m.count CEv.comp = m.count CEv.found + cs.length) := by
  intro N
  induction N using Nat.strong_induction_on with
  | _ N ih =>
    constructor
    · intro content hsz maxDepth depth tr htr
      rw [FillTraceSet.eq_def] at htr
      by_cases hd : maxDepth ≤ depth
      · rw [if_pos hd] at htr
        subst htr
        exact ⟨safeBound_single_comp, by simp [List.count_cons]⟩
      · rw [if_neg hd] at htr
        cases content with
        | err =>
          subst htr
          exact ⟨safeBound_single_comp, by simp [List.count_cons]⟩
        | ok entries =>
          obtain ⟨m, hm, rfl⟩ := htr
          have hsub : sizeOf (subdirContents entries) < N := by
            have h1 := sizeOf_subdirContents_le entries
            have h2 : sizeOf entries < sizeOf (DirContent.ok entries) := by
              simp [DirContent.ok.sizeOf_spec]
            omega
          have hmm := (ih _ hsub).2 (subdirContents entries) (Nat.le_refl _)
            maxDepth (depth + 1) m hm
          set k := (subdirContents entries).length with hk
          have hcomp_repl :
              (List.replicate k CEv.found).count CEv.comp = 0 := by
            simp [List.count_replicate]
          have hfound_repl :
              (List.replicate k CEv.found).count CEv.found = k := by
            simp [List.count_replicate]
          constructor
          · intro n
            rw [List.take_append_eq_append_take,
              List.take_append_eq_append_take]
            simp only [List.count_append, List.length_append,
              List.length_replicate, List.take_replicate]
            have hrc : (List.replicate (min n k) CEv.found).count CEv.comp
                = 0 := by simp [List.count_replicate]
            have hrf : (List.replicate (min n k) CEv.found).count CEv.found
                = min n k := by simp [List.count_replicate]
            rw [hrc, hrf]
            have h2 : ((m.take (n - k)).count CEv.comp)
                ≤ ((m.take (n - k)).count CEv.found) + k := hmm.1 (n - k)
            have h3 : ((List.take (n - (k + m.length)) [CEv.comp]).count
                CEv.comp) ≤ 1 := by
              have hc := List.count_le_length CEv.comp
                (List.take (n - (k + m.length)) [CEv.comp])
              have hl : (List.take (n - (k + m.length)) [CEv.comp]).length
                  ≤ 1 := by
                rw [List.length_take]
                exact Nat.min_le_right _ _
              omega
            have h5 : ((List.take (n - (k + m.length)) [CEv.comp]).count
                CEv.found) = 0 := by
              have hs := (List.take_sublist (n - (k + m.length))
                [CEv.comp]).count_le CEv.found
              simpa using hs
            rw [h5]
            by_cases hnk : n < k
            · have hz : n - k = 0 := Nat.sub_eq_zero_of_le (Nat.le_of_lt hnk)
              have hz2 : n - (k + m.length) = 0 := by omega
              rw [hz, hz2] at *
              simp only [List.take_zero, List.count_nil] at *
              omega
            · have hmin : min n k = k := Nat.min_eq_right (Nat.le_of_not_lt hnk)
              rw [hmin]
              omega
          · simp only [List.count_append, hcomp_repl, hfound_repl]
            have h5 : ([CEv.comp].count CEv.comp) = 1 := rfl
            have h6 : ([CEv.comp].count CEv.found) = 0 := rfl
            omega
    · intro cs hsz maxDepth depth m hm
      cases cs with
      | nil =>
        rw [SubTraceSet.eq_def] at hm
        subst hm
        exact ⟨fun n => by simp, by simp⟩
      | cons c cs =>
        rw [SubTraceSet.eq_def] at hm
        obtain ⟨t, m', ht, hm', hint⟩ := hm
        have hc : sizeOf c < N := by
          have : sizeOf c < sizeOf (c :: cs) := by
            simp [List.cons.sizeOf_spec]
            try omega
          omega
        have hcs : sizeOf cs < N := by
          have : sizeOf cs < sizeOf (c :: cs) := by
            simp [List.cons.sizeOf_spec]
            try omega
          omega
        have ha := (ih _ hc).1 c (Nat.le_refl _) maxDepth depth t ht
        have hb := (ih _ hcs).2 cs (Nat.le_refl _) maxDepth depth m' hm'
        constructor
        · intro n
          have := hint.safeBound ha.1 hb.1 n
          simp only [List.length_cons]
          omega
        · have h1 := hint.count CEv.comp
          have h2 := hint.count CEv.found
          simp only [List.length_cons]
          omega

/-- C10.  For every admissible counter-event trace of a complete,
uncancelled streaming scan — under *every* interleaving of the concurrent
per-directory work — the running counters satisfy
`dirsCompleted ≤ dirsFound` at every point, and they are equal when the scan
completes.  `dirsFound` is `1` (its initial value, accounting for the root)
plus the number of `found` events delivered so far, `dirsCompleted` is the
number of `comp` events delivered so far; each directory's subdirectories
are counted into `dirsFound` before any of their recursive fills begins, and
each directory contributes exactly one `comp` on every completion path. -/
theorem progress_counters_spec (maxDepth : Nat) (content : DirContent)
    (tr : List CEv) (h : FillTraceSet maxDepth 0 content tr) :
    (∀ n : Nat,
      (tr.take n).count CEv.comp ≤ 1 + (tr.take n).count CEv.found)
    ∧ tr.count CEv.comp = 1 + tr.count CEv.found := by
  have := (fillTraceSafe_aux (sizeOf content)).1 content (Nat.le_refl _)
    maxDepth 0 tr h
  exact ⟨fun n => by have := this.1 n; omega, by have := this.2; omega⟩

/-- A concrete admissible trace: scanning `.ok [.dir "b" .err]` with
`maxDepth = 1` counts the subdirectory (`found`), completes it at the depth
limit (`comp`), then completes the root (`comp`). -/
theorem fillTraceSet_example :
    FillTraceSet 1 0 (.ok [.dir "b" .err]) [.found, .comp, .comp] := by
  rw [FillTraceSet.eq_def]
  rw [if_neg (by omega)]
  refine ⟨[.comp], ?_, rfl⟩
  rw [subdirContents, subdirContents, SubTraceSet.eq_def]
  refine ⟨[.comp], [], ?_, ?_, ?_⟩
  · rw [FillTraceSet.eq_def]
    rw [if_pos (Nat.le_refl _)]
  · rw [SubTraceSet.eq_def]
  · exact Interleave.left _ Interleave.nil

/-- Witness for C10 at the concrete trace `[found, comp, comp]`. -/
theorem progress_counters_spec_witness :
    (∀ n : Nat,
      (([CEv.found, CEv.comp, CEv.comp].take n).count CEv.comp
        ≤ 1 + (([CEv.found, CEv.comp, CEv.comp]).take n).count CEv.found))
    ∧ [CEv.found, CEv.comp, CEv.comp].count CEv.comp
        = 1 + [CEv.found, CEv.comp, CEv.comp].count CEv.found :=
  progress_counters_spec 1 (.ok [.dir "b" .err]) [.found, .comp, .comp]
    fillTraceSet_example
